import Mathlib

/-!
Verification of the ParallelizedProgrammingLanguage toolchain: a shallow
embedding of the scanner (src/scanner.rs), Pratt expression parser
(src/parser.rs), bytecode compiler (src/compiler.rs, src/vm.rs) and the
stack virtual machine (src/vm.rs), together with proofs of the behavioural
properties claimed by the design document.

Modelling conventions:
* Rust `f64` values are modelled as `ℚ` (exact arithmetic; division by zero
  yields `0` on both sides of every equation proved here, so no statement
  depends on IEEE-special values).
* A Rust `panic!` is modelled by returning `none` / an error outcome.
* The per-spawn thread of `Spawn` always sends exactly the sampled value
  through its dedicated channel, so the pair (thread handle, receiver) is
  modelled by the queued value itself (`receivers : List ℚ`) plus a count
  of unjoined threads (`threads : ℕ`).
* Loops of the Rust source that consume input characters or tokens are
  modelled with an explicit fuel parameter; the Rust loops terminate because
  every iteration consumes input, so every concrete computation below is run
  with fuel larger than the input and general theorems quantify over fuel.
-/

/-- Tokens of the scanner, mirroring `Token` of src/scanner.rs.  The Rust
enum has exactly these variants: in particular there is no comma, brace or
`fn` keyword variant. -/
inductive Token where
  | Identifier : String → Token
  | Number : ℚ → Token
  | Plus | Minus | Star | Slash | Assign | Semicolon | LParen | RParen
  | KeywordSpawn | KeywordSync | KeywordBarrier | KeywordJump | KeywordJz | KeywordJnz
  | Eof
deriving DecidableEq

/-- Scanner state, mirroring `Scanner` of src/scanner.rs: the one-character
lookahead `current` plus the not yet consumed remainder of the input. -/
structure Scanner where
  current : Option Char
  rest : List Char
deriving DecidableEq

/-- `Scanner::new`: position at the first character of the input. -/
def Scanner.new (input : String) : Scanner :=
  { current := input.data.head?, rest := input.data.tail }

/-- `Scanner::bump`: advance the cursor by one character. -/
def Scanner.bump (s : Scanner) : Scanner :=
  { current := s.rest.head?, rest := s.rest.tail }

/-- `Scanner::peek`: the character after `current`. -/
def Scanner.peek (s : Scanner) : Option Char :=
  s.rest.head?

/-- Inner while-loop of `skip_whitespace_and_comments`: consume a maximal
run of whitespace characters. -/
def Scanner.skipSpaces : Nat → Scanner → Scanner
  | 0, s => s
  | f + 1, s =>
    match s.current with
    | some c => if c.isWhitespace then Scanner.skipSpaces f s.bump else s
    | none => s

/-- Comment consumption of `skip_whitespace_and_comments`: consume
characters until a newline or end of input. -/
def Scanner.skipComment : Nat → Scanner → Scanner
  | 0, s => s
  | f + 1, s =>
    match s.current with
    | some c => if c = '\n' then s else Scanner.skipComment f s.bump
    | none => s

/-- Outer loop of `skip_whitespace_and_comments`: whitespace, then a `//`
comment if present, repeated. -/
def Scanner.skipWsComments : Nat → Scanner → Scanner
  | 0, s => s
  | f + 1, s =>
    let s1 := Scanner.skipSpaces (s.rest.length + 1) s
    if s1.current = some '/' ∧ s1.peek = some '/' then
      Scanner.skipWsComments f (Scanner.skipComment (s1.rest.length + 1) s1)
    else s1

/-- The skipping phase performed at the start of `Scanner::next_token`. -/
def Scanner.skipPhase (s : Scanner) : Scanner :=
  Scanner.skipWsComments (s.rest.length + 2) s

/-- Maximal run of alphanumeric / underscore characters
(`identifier_or_keyword` collection loop). -/
def Scanner.takeIdentChars : Nat → Scanner → List Char × Scanner
  | 0, s => ([], s)
  | f + 1, s =>
    match s.current with
    | some c =>
      if c.isAlphanum ∨ c = '_' then
        let (cs, s1) := Scanner.takeIdentChars f s.bump
        (c :: cs, s1)
      else ([], s)
    | none => ([], s)

/-- `identifier_or_keyword`: lex an identifier and resolve keywords. -/
def Scanner.identOrKeyword (s : Scanner) : Token × Scanner :=
  let (cs, s1) := Scanner.takeIdentChars (s.rest.length + 2) s
  let ident := String.mk cs
  (match ident with
   | "spawn" => Token.KeywordSpawn
   | "sync" => Token.KeywordSync
   | "barrier" => Token.KeywordBarrier
   | "jump" => Token.KeywordJump
   | "jz" => Token.KeywordJz
   | "jnz" => Token.KeywordJnz
   | _ => Token.Identifier ident, s1)

/-- Maximal run of ascii digits (`number` collection loops). -/
def Scanner.takeDigits : Nat → Scanner → List Char × Scanner
  | 0, s => ([], s)
  | f + 1, s =>
    match s.current with
    | some c =>
      if c.isDigit then
        let (cs, s1) := Scanner.takeDigits f s.bump
        (c :: cs, s1)
      else ([], s)
    | none => ([], s)

/-- Numeric value of a digit run. -/
def digitsToNat (ds : List Char) : Nat :=
  ds.foldl (fun acc c => 10 * acc + (c.toNat - 48)) 0

/-- `Scanner::number`: integer part, then a fractional part only when the
dot is immediately followed by a digit. -/
def Scanner.numberTok (s : Scanner) : Token × Scanner :=
  let (ds, s1) := Scanner.takeDigits (s.rest.length + 2) s
  if s1.current = some '.' ∧ (s1.peek.map Char.isDigit).getD false = true then
    let (fs, s2) := Scanner.takeDigits (s1.rest.length + 2) s1.bump
    (Token.Number ((digitsToNat ds : ℚ) + (digitsToNat fs : ℚ) / ((10 : ℚ) ^ fs.length)), s2)
  else
    (Token.Number (digitsToNat ds : ℚ), s1)

/-- `Scanner::next_token`: skip whitespace and comments, then dispatch on
the current character.  `none` models the `panic!("Unexpected character")`
arm. -/
def Scanner.nextToken (s : Scanner) : Option (Token × Scanner) :=
  let s1 := s.skipPhase
  match s1.current with
  | some c =>
    if c.isAlpha ∨ c = '_' then some s1.identOrKeyword
    else if c.isDigit then some s1.numberTok
    else if c = '+' then some (Token.Plus, s1.bump)
    else if c = '-' then some (Token.Minus, s1.bump)
    else if c = '*' then some (Token.Star, s1.bump)
    else if c = '/' then some (Token.Slash, s1.bump)
    else if c = '=' then some (Token.Assign, s1.bump)
    else if c = ';' then some (Token.Semicolon, s1.bump)
    else if c = '(' then some (Token.LParen, s1.bump)
    else if c = ')' then some (Token.RParen, s1.bump)
    else none
  | none => some (Token.Eof, s1)

/-- Run the scanner over the whole input, collecting the tokens before the
end-of-input marker. -/
def tokenizeGo : Nat → Scanner → Option (List Token)
  | 0, _ => none
  | f + 1, s => do
    let (t, s1) ← s.nextToken
    if t = Token.Eof then some []
    else do
      let ts ← tokenizeGo f s1
      some (t :: ts)

/-- Token list of a source string (the token stream the parser pulls,
materialised eagerly; the scanner returns `Eof` forever afterwards). -/
def tokenize (src : String) : Option (List Token) :=
  tokenizeGo (src.length + 1) (Scanner.new src)

/-- AST expressions, mirroring `Expr` of src/parser.rs. -/
inductive Expr where
  | Number : ℚ → Expr
  | Ident : String → Expr
  | UnaryOp : Token → Expr → Expr
  | BinaryOp : Expr → Token → Expr → Expr
  | Call : String → List Expr → Expr
  | Function : String → List String → List Expr → Expr

/-- Bytecode instruction set, mirroring `Bytecode` of src/vm.rs. -/
inductive Bytecode where
  | Neg
  | Add | Sub | Mul | Div
  | LoadConst : ℚ → Bytecode
  | LoadVar : Nat → Bytecode
  | StoreVar : Nat → Bytecode
  | Spawn | Sync | Barrier
  | Jump : Nat → Bytecode
  | JumpIfZero : Nat → Bytecode
  | JumpIfNotZero : Nat → Bytecode
  | Pop | Dup
  | Call : String → Nat → Bytecode
  | Return
  | Halt
deriving DecidableEq

/-- VM state, mirroring the `VM` struct of src/vm.rs.  The stack grows at
the head of the list (`head = top of stack`).  The thread/receiver pairs
created by `Spawn` are modelled by the value each receiver will yield
(`receivers`, in spawn order) and the number of unjoined threads. -/
structure VMState where
  stack : List ℚ
  memory : Nat → Option ℚ
  pc : Nat
  bytecode : List Bytecode
  threads : Nat
  receivers : List ℚ
  userFns : String → Option Nat
  nativeFns : String → Option (List ℚ → ℚ)

/-- `VM::new`: fresh state over a bytecode sequence, with the single
standard-library native function `print` (which returns `0.0`) registered. -/
def VM.new (code : List Bytecode) : VMState :=
  { stack := []
    memory := fun _ => none
    pc := 0
    bytecode := code
    threads := 0
    receivers := []
    userFns := fun _ => none
    nativeFns := fun name => if name = "print" then some (fun _ => 0) else none }

/-- Outcome of one dispatch of the execution loop: a fatal panic, loop
exit (`Halt` or program counter past the end), or continuation. -/
inductive StepOut where
  | err : StepOut
  | done : VMState → StepOut
  | next : VMState → StepOut
deriving Inhabited

/-- The `binop!` macro of `VM::execute`: pop the right operand, pop the
left operand, push the combination; popping from an empty stack panics. -/
def binopStep (s : VMState) (f : ℚ → ℚ → ℚ) : StepOut :=
  match s.stack with
  | b :: a :: rest => StepOut.next { s with stack := f a b :: rest, pc := s.pc + 1 }
  | _ => StepOut.err

/-- The arguments a native call receives: `argc` values popped from the
stack (missing values default to `0.0`, per `unwrap_or(0.0)`), reversed to
restore left-to-right order. -/
def nativeArgs (stack : List ℚ) (argc : Nat) : List ℚ :=
  ((List.range argc).map (fun i => stack.getD i 0)).reverse

/-- One iteration of the `while self.pc < self.bytecode.len()` loop of
`VM::execute`, one case per instruction. -/
def step (s : VMState) : StepOut :=
  match s.bytecode[s.pc]? with
  | none => StepOut.done s
  | some instr =>
    match instr with
    | Bytecode.Neg =>
      match s.stack with
      | v :: rest => StepOut.next { s with stack := -v :: rest, pc := s.pc + 1 }
      | [] => StepOut.err
    | Bytecode.Add => binopStep s (fun a b => a + b)
    | Bytecode.Sub => binopStep s (fun a b => a - b)
    | Bytecode.Mul => binopStep s (fun a b => a * b)
    | Bytecode.Div => binopStep s (fun a b => a / b)
    | Bytecode.LoadConst v => StepOut.next { s with stack := v :: s.stack, pc := s.pc + 1 }
    | Bytecode.LoadVar i =>
      match s.memory i with
      | some v => StepOut.next { s with stack := v :: s.stack, pc := s.pc + 1 }
      | none => StepOut.err
    | Bytecode.StoreVar i =>
      match s.stack with
      | v :: rest =>
        StepOut.next { s with stack := rest
                              memory := fun j => if j = i then some v else s.memory j
                              pc := s.pc + 1 }
      | [] => StepOut.err
    | Bytecode.Jump t => StepOut.next { s with pc := t }
    | Bytecode.JumpIfZero t =>
      match s.stack with
      | top :: _ =>
        if top = 0 then StepOut.next { s with pc := t }
        else StepOut.next { s with pc := s.pc + 1 }
      | [] => StepOut.err
    | Bytecode.JumpIfNotZero t =>
      match s.stack with
      | top :: _ =>
        if top ≠ 0 then StepOut.next { s with pc := t }
        else StepOut.next { s with pc := s.pc + 1 }
      | [] => StepOut.err
    | Bytecode.Pop => StepOut.next { s with stack := s.stack.tail, pc := s.pc + 1 }
    | Bytecode.Dup =>
      match s.stack with
      | top :: rest => StepOut.next { s with stack := top :: top :: rest, pc := s.pc + 1 }
      | [] => StepOut.err
    | Bytecode.Call name argc =>
      match s.nativeFns name with
      | some f =>
        StepOut.next { s with stack := f (nativeArgs s.stack argc) :: s.stack.drop argc
                              pc := s.pc + 1 }
      | none =>
        match s.userFns name with
        | some addr =>
          StepOut.next { s with stack := ((s.pc + 1 : Nat) : ℚ) :: s.stack, pc := addr }
        | none => StepOut.next { s with pc := s.pc + 1 }
    | Bytecode.Return =>
      match s.stack with
      | result :: retAddr :: rest =>
        StepOut.next { s with stack := result :: rest, pc := retAddr.floor.toNat }
      | _ => StepOut.err
    | Bytecode.Halt => StepOut.done s
    | Bytecode.Spawn =>
      StepOut.next { s with receivers := s.receivers ++ [s.stack.headD 0]
                            threads := s.threads + 1
                            pc := s.pc + 1 }
    | Bytecode.Sync =>
      StepOut.next { s with stack := s.receivers.reverse
                            receivers := []
                            threads := 0
                            pc := s.pc + 1 }
    | Bytecode.Barrier =>
      StepOut.next { s with threads := 0, pc := s.pc + 1 }

/-- Result of running the execution loop with a fuel bound. -/
inductive ExecResult where
  | ok : VMState → ExecResult
  | fault : ExecResult
  | fuelOut : ExecResult
deriving Inhabited

/-- `VM::execute`: iterate `step` until the loop exits or a panic occurs. -/
def execute : Nat → VMState → ExecResult
  | 0, _ => ExecResult.fuelOut
  | n + 1, s =>
    match step s with
    | StepOut.done t => ExecResult.ok t
    | StepOut.err => ExecResult.fault
    | StepOut.next t => execute n t

/-- `VM::run`: execute a fresh VM over the bytecode and pop the final top
of stack (default `0.0`). -/
def runOut (code : List Bytecode) (fuel : Nat) : Option ℚ :=
  match execute fuel (VM.new code) with
  | ExecResult.ok t => some (t.stack.headD 0)
  | _ => none

/-- Final stack of an execution from an explicit initial state. -/
def runStack (s : VMState) (fuel : Nat) : Option (List ℚ) :=
  match execute fuel s with
  | ExecResult.ok t => some t.stack
  | _ => none

/-- `PrattParser::lbp`: binding power of an infix token. -/
def lbp : Token → Nat
  | Token.Plus | Token.Minus => 10
  | Token.Star | Token.Slash => 20
  | _ => 0

/-- The parser's one-token lookahead over a materialised token stream: once
the stream is exhausted the scanner yields `Eof` forever. -/
def curTok (ts : List Token) : Token :=
  ts.headD Token.Eof

mutual

/-- `PrattParser::nud`: prefix-position dispatch.  `none` models the panic
arms (including the unreachable `fn` branch, whose `Token::KeywordFn`
discriminant does not exist in the scanner's token type). -/
def nudP : Nat → List Token → Option (Expr × List Token)
  | 0, _ => none
  | f + 1, ts =>
    match curTok ts with
    | Token.Number n => some (Expr.Number n, ts.tail)
    | Token.Identifier name =>
      let ts1 := ts.tail
      if curTok ts1 = Token.LParen then parseCallP f name ts1.tail
      else some (Expr.Ident name, ts1)
    | Token.Minus => do
      let (r, ts1) ← exprP f 100 ts.tail
      some (Expr.UnaryOp Token.Minus r, ts1)
    | Token.LParen => do
      let (e, ts1) ← exprP f 0 ts.tail
      if curTok ts1 = Token.RParen then some (e, ts1.tail) else none
    | _ => none

/-- `PrattParser::parse_call`: argument list after `name(`.  The scanner's
token type has no comma variant, so the argument loop body runs at most
once before the `')'` check. -/
def parseCallP : Nat → String → List Token → Option (Expr × List Token)
  | 0, _, _ => none
  | f + 1, name, ts =>
    if curTok ts = Token.RParen then some (Expr.Call name [], ts.tail)
    else if curTok ts = Token.Eof then none
    else do
      let (a, ts1) ← exprP f 0 ts
      if curTok ts1 = Token.RParen then some (Expr.Call name [a], ts1.tail) else none

/-- `PrattParser::expr`: parse a prefix expression then enter the infix
fold loop. -/
def exprP : Nat → Nat → List Token → Option (Expr × List Token)
  | 0, _, _ => none
  | f + 1, minBp, ts => do
    let (lhs, ts1) ← nudP f ts
    ledLoopP f minBp lhs ts1

/-- The infix loop of `PrattParser::expr` together with
`PrattParser::led`: stop at `Eof`/`RParen` or lower binding power, else
consume the operator and parse its right-hand side at the operator's own
binding power. -/
def ledLoopP : Nat → Nat → Expr → List Token → Option (Expr × List Token)
  | 0, _, _, _ => none
  | f + 1, minBp, lhs, ts =>
    if curTok ts = Token.Eof ∨ curTok ts = Token.RParen then some (lhs, ts)
    else if lbp (curTok ts) < minBp then some (lhs, ts)
    else
      match curTok ts with
      | Token.Plus => do
        let (rhs, ts1) ← exprP f (lbp Token.Plus) ts.tail
        ledLoopP f minBp (Expr.BinaryOp lhs Token.Plus rhs) ts1
      | Token.Minus => do
        let (rhs, ts1) ← exprP f (lbp Token.Minus) ts.tail
        ledLoopP f minBp (Expr.BinaryOp lhs Token.Minus rhs) ts1
      | Token.Star => do
        let (rhs, ts1) ← exprP f (lbp Token.Star) ts.tail
        ledLoopP f minBp (Expr.BinaryOp lhs Token.Star rhs) ts1
      | Token.Slash => do
        let (rhs, ts1) ← exprP f (lbp Token.Slash) ts.tail
        ledLoopP f minBp (Expr.BinaryOp lhs Token.Slash rhs) ts1
      | _ => none

end

/-- `parse_expr` of src/lib.rs: scan the source and parse one expression at
minimum binding power `0` (the token after the expression is consumed as
lookahead and discarded; `parse_expr` does not require it to be `Eof`). -/
def parseExpr (fuel : Nat) (src : String) : Option Expr := do
  let ts ← tokenize src
  let (e, _) ← exprP fuel 0 ts
  some e

mutual

/-- `Bytecode::compile_expr` of src/vm.rs: post-order lowering of an
expression.  `none` models the panic arms (bare identifiers, unsupported
operators); `Function` nodes produce no code. -/
def compileExpr : Expr → Option (List Bytecode)
  | Expr.Number n => some [Bytecode.LoadConst n]
  | Expr.Ident _ => none
  | Expr.UnaryOp op rhs => do
    let r ← compileExpr rhs
    match op with
    | Token.Minus => some (r ++ [Bytecode.Neg])
    | _ => none
  | Expr.BinaryOp lhs op rhs => do
    let l ← compileExpr lhs
    let r ← compileExpr rhs
    match op with
    | Token.Plus => some (l ++ r ++ [Bytecode.Add])
    | Token.Minus => some (l ++ r ++ [Bytecode.Sub])
    | Token.Star => some (l ++ r ++ [Bytecode.Mul])
    | Token.Slash => some (l ++ r ++ [Bytecode.Div])
    | _ => none
  | Expr.Call name args => do
    let ca ← compileArgs args
    some (ca ++ [Bytecode.Call name args.length])
  | Expr.Function _ _ _ => some []

/-- Left-to-right compilation of call arguments. -/
def compileArgs : List Expr → Option (List Bytecode)
  | [] => some []
  | a :: rest => do
    let ca ← compileExpr a
    let cr ← compileArgs rest
    some (ca ++ cr)

end

/-- `BytecodeCompiler::compile` of src/compiler.rs: lower the expression
and terminate the sequence with `Halt`. -/
def compileTop (e : Expr) : Option (List Bytecode) :=
  (compileExpr e).map (fun c => c ++ [Bytecode.Halt])

/-- Modelled from the spec: the mathematically correct value of an
arithmetic expression tree (numeric leaf, negation, and the four binary
operators; values are exact rationals). -/
def evalExpr : Expr → ℚ
  | Expr.Number n => n
  | Expr.UnaryOp _ r => -(evalExpr r)
  | Expr.BinaryOp l op r =>
    match op with
    | Token.Plus => evalExpr l + evalExpr r
    | Token.Minus => evalExpr l - evalExpr r
    | Token.Star => evalExpr l * evalExpr r
    | Token.Slash => evalExpr l / evalExpr r
    | _ => 0
  | _ => 0

/-- The purely arithmetic expression trees: numeric literals, unary minus
and the four binary operators. -/
inductive Arith : Expr → Prop where
  | num (n : ℚ) : Arith (Expr.Number n)
  | neg {e : Expr} : Arith e → Arith (Expr.UnaryOp Token.Minus e)
  | bin {l r : Expr} (op : Token) :
      op = Token.Plus ∨ op = Token.Minus ∨ op = Token.Star ∨ op = Token.Slash →
      Arith l → Arith r → Arith (Expr.BinaryOp l op r)

mutual

/-- Modelled from the spec: the factor level of the arithmetic grammar — a
numeric literal, a unary minus applied to a factor (unary minus binds
tighter than any binary operator), or a parenthesised expression. -/
def specFactor : Nat → List Token → Option (Expr × List Token)
  | 0, _ => none
  | f + 1, ts =>
    match curTok ts with
    | Token.Number n => some (Expr.Number n, ts.tail)
    | Token.Minus => do
      let (r, ts1) ← specFactor f ts.tail
      some (Expr.UnaryOp Token.Minus r, ts1)
    | Token.LParen => do
      let (e, ts1) ← specExprR f ts.tail
      if curTok ts1 = Token.RParen then some (e, ts1.tail) else none
    | _ => none

/-- Modelled from the spec as amended: the term level — factors combined
by `*` and `/`, operators of equal precedence grouping to the right. -/
def specTermR : Nat → List Token → Option (Expr × List Token)
  | 0, _ => none
  | f + 1, ts => do
    let (l, ts1) ← specFactor f ts
    if curTok ts1 = Token.Star then do
      let (r, ts2) ← specTermR f ts1.tail
      some (Expr.BinaryOp l Token.Star r, ts2)
    else if curTok ts1 = Token.Slash then do
      let (r, ts2) ← specTermR f ts1.tail
      some (Expr.BinaryOp l Token.Slash r, ts2)
    else some (l, ts1)

/-- Modelled from the spec as amended: the expression level — terms
combined by `+` and `-`, operators of equal precedence grouping to the
right (`*`/`/` bind tighter than `+`/`-`). -/
def specExprR : Nat → List Token → Option (Expr × List Token)
  | 0, _ => none
  | f + 1, ts => do
    let (l, ts1) ← specTermR f ts
    if curTok ts1 = Token.Plus then do
      let (r, ts2) ← specExprR f ts1.tail
      some (Expr.BinaryOp l Token.Plus r, ts2)
    else if curTok ts1 = Token.Minus then do
      let (r, ts2) ← specExprR f ts1.tail
      some (Expr.BinaryOp l Token.Minus r, ts2)
    else some (l, ts1)

end

mutual

/-- Modelled from the spec: the term level of the original (unamended)
grammar — factors combined by `*` and `/`, equal precedence
left-associative. -/
def specTermL : Nat → List Token → Option (Expr × List Token)
  | 0, _ => none
  | f + 1, ts => do
    let (l, ts1) ← specFactorL f ts
    specTermLGo f l ts1

/-- Left fold of `*`/`/` over factors. -/
def specTermLGo : Nat → Expr → List Token → Option (Expr × List Token)
  | 0, _, _ => none
  | f + 1, acc, ts =>
    match curTok ts with
    | Token.Star => do
      let (r, ts1) ← specFactorL f ts.tail
      specTermLGo f (Expr.BinaryOp acc Token.Star r) ts1
    | Token.Slash => do
      let (r, ts1) ← specFactorL f ts.tail
      specTermLGo f (Expr.BinaryOp acc Token.Slash r) ts1
    | _ => some (acc, ts)

/-- Modelled from the spec: the factor level of the original grammar. -/
def specFactorL : Nat → List Token → Option (Expr × List Token)
  | 0, _ => none
  | f + 1, ts =>
    match curTok ts with
    | Token.Number n => some (Expr.Number n, ts.tail)
    | Token.Minus => do
      let (r, ts1) ← specFactorL f ts.tail
      some (Expr.UnaryOp Token.Minus r, ts1)
    | Token.LParen => do
      let (e, ts1) ← specExprL f ts.tail
      if curTok ts1 = Token.RParen then some (e, ts1.tail) else none
    | _ => none

/-- Modelled from the spec: the expression level of the original grammar —
terms combined by `+` and `-`, equal precedence left-associative. -/
def specExprL : Nat → List Token → Option (Expr × List Token)
  | 0, _ => none
  | f + 1, ts => do
    let (l, ts1) ← specTermL f ts
    specExprLGo f l ts1

/-- Left fold of `+`/`-` over terms. -/
def specExprLGo : Nat → Expr → List Token → Option (Expr × List Token)
  | 0, _, _ => none
  | f + 1, acc, ts =>
    match curTok ts with
    | Token.Plus => do
      let (r, ts1) ← specTermL f ts.tail
      specExprLGo f (Expr.BinaryOp acc Token.Plus r) ts1
    | Token.Minus => do
      let (r, ts1) ← specTermL f ts.tail
      specExprLGo f (Expr.BinaryOp acc Token.Minus r) ts1
    | _ => some (acc, ts)

end

/-- Iterate `step` through exactly `n` continuing steps (`none` if the
loop exits, faults, or fuel runs out earlier). -/
def nextN : Nat → VMState → Option VMState
  | 0, s => some s
  | n + 1, s =>
    match step s with
    | StepOut.next t => nextN n t
    | _ => none

/-- The hand-assembled program of the user-function scenario: `add1` is
the body at addresses 4–7, called with its argument stored in slot 0. -/
def add1Prog : List Bytecode :=
  [Bytecode.LoadConst 10, Bytecode.StoreVar 0, Bytecode.Call "add1" 1, Bytecode.Halt,
   Bytecode.LoadVar 0, Bytecode.LoadConst 1, Bytecode.Add, Bytecode.Return]

/-- The scenario VM: `add1` registered at entry address 4. -/
def add1State : VMState :=
  { VM.new add1Prog with userFns := fun n => if n = "add1" then some 4 else none }

/-- A state about to perform a user-function call. -/
def userCallDemo : VMState :=
  { VM.new [Bytecode.Call "f" 0] with userFns := fun n => if n = "f" then some 0 else none }

/-- A state about to execute `Return` with result `11` under return
address `3` on the stack. -/
def returnDemo : VMState :=
  { VM.new [Bytecode.Return] with stack := [11, 3] }

/-- The program of the C2 counterexample: one `Spawn`, then a `Barrier`,
then a `Sync` with no `Spawn` in between. -/
def spawnBarrierSyncProg : List Bytecode :=
  [Bytecode.LoadConst 5, Bytecode.Spawn, Bytecode.Barrier, Bytecode.Sync, Bytecode.Halt]

/-- The state reached immediately after the `Barrier` of
`spawnBarrierSyncProg`: the receiver of the earlier spawn is still
pending. -/
def afterBarrierState : VMState :=
  { VM.new spawnBarrierSyncProg with stack := [5], receivers := [5], threads := 0, pc := 3 }

/-- A state about to execute `Sync` with two outstanding spawn results. -/
def syncDemo : VMState :=
  { VM.new [Bytecode.Sync] with stack := [9], receivers := [5, 7], threads := 2 }

/-- A state about to execute `Barrier` with an outstanding spawn result. -/
def barrierDemo : VMState :=
  { VM.new [Bytecode.Barrier] with stack := [3, 4], receivers := [10], threads := 1 }

/-- A state about to execute `Spawn` with an empty stack. -/
def spawnDemo : VMState :=
  VM.new [Bytecode.Spawn]

/-- A state about to call a function name registered neither as native nor
as user function. -/
def unknownCallDemo : VMState :=
  VM.new [Bytecode.Call "frobnicate" 2]

/-- One dispatch of `VM::execute` as a relation between a state and its
outcome, one constructor per source arm (including every panic arm).
Determinism of VM execution is the statement that this relation is
functional. -/
inductive Step : VMState → StepOut → Prop where
  | pastEnd {s : VMState} :
      s.bytecode[s.pc]? = none → Step s (StepOut.done s)
  | halted {s : VMState} :
      s.bytecode[s.pc]? = some Bytecode.Halt → Step s (StepOut.done s)
  | neg {s : VMState} {v : ℚ} {rest : List ℚ} :
      s.bytecode[s.pc]? = some Bytecode.Neg → s.stack = v :: rest →
      Step s (StepOut.next { s with stack := -v :: rest, pc := s.pc + 1 })
  | negErr {s : VMState} :
      s.bytecode[s.pc]? = some Bytecode.Neg → s.stack = [] → Step s StepOut.err
  | add {s : VMState} {b a : ℚ} {rest : List ℚ} :
      s.bytecode[s.pc]? = some Bytecode.Add → s.stack = b :: a :: rest →
      Step s (StepOut.next { s with stack := (a + b) :: rest, pc := s.pc + 1 })
  | addErr {s : VMState} :
      s.bytecode[s.pc]? = some Bytecode.Add → s.stack.length ≤ 1 → Step s StepOut.err
  | sub {s : VMState} {b a : ℚ} {rest : List ℚ} :
      s.bytecode[s.pc]? = some Bytecode.Sub → s.stack = b :: a :: rest →
      Step s (StepOut.next { s with stack := (a - b) :: rest, pc := s.pc + 1 })
  | subErr {s : VMState} :
      s.bytecode[s.pc]? = some Bytecode.Sub → s.stack.length ≤ 1 → Step s StepOut.err
  | mul {s : VMState} {b a : ℚ} {rest : List ℚ} :
      s.bytecode[s.pc]? = some Bytecode.Mul → s.stack = b :: a :: rest →
      Step s (StepOut.next { s with stack := (a * b) :: rest, pc := s.pc + 1 })
  | mulErr {s : VMState} :
      s.bytecode[s.pc]? = some Bytecode.Mul → s.stack.length ≤ 1 → Step s StepOut.err
  | div {s : VMState} {b a : ℚ} {rest : List ℚ} :
      s.bytecode[s.pc]? = some Bytecode.Div → s.stack = b :: a :: rest →
      Step s (StepOut.next { s with stack := (a / b) :: rest, pc := s.pc + 1 })
  | divErr {s : VMState} :
      s.bytecode[s.pc]? = some Bytecode.Div → s.stack.length ≤ 1 → Step s StepOut.err
  | loadConst {s : VMState} {v : ℚ} :
      s.bytecode[s.pc]? = some (Bytecode.LoadConst v) →
      Step s (StepOut.next { s with stack := v :: s.stack, pc := s.pc + 1 })
  | loadVar {s : VMState} {i : Nat} {v : ℚ} :
      s.bytecode[s.pc]? = some (Bytecode.LoadVar i) → s.memory i = some v →
      Step s (StepOut.next { s with stack := v :: s.stack, pc := s.pc + 1 })
  | loadVarErr {s : VMState} {i : Nat} :
      s.bytecode[s.pc]? = some (Bytecode.LoadVar i) → s.memory i = none →
      Step s StepOut.err
  | storeVar {s : VMState} {i : Nat} {v : ℚ} {rest : List ℚ} :
      s.bytecode[s.pc]? = some (Bytecode.StoreVar i) → s.stack = v :: rest →
      Step s (StepOut.next { s with stack := rest
                                    memory := fun j => if j = i then some v else s.memory j
                                    pc := s.pc + 1 })
  | storeVarErr {s : VMState} {i : Nat} :
      s.bytecode[s.pc]? = some (Bytecode.StoreVar i) → s.stack = [] → Step s StepOut.err
  | jump {s : VMState} {t : Nat} :
      s.bytecode[s.pc]? = some (Bytecode.Jump t) → Step s (StepOut.next { s with pc := t })
  | jzTaken {s : VMState} {t : Nat} {top : ℚ} {rest : List ℚ} :
      s.bytecode[s.pc]? = some (Bytecode.JumpIfZero t) → s.stack = top :: rest →
      top = 0 → Step s (StepOut.next { s with pc := t })
  | jzFall {s : VMState} {t : Nat} {top : ℚ} {rest : List ℚ} :
      s.bytecode[s.pc]? = some (Bytecode.JumpIfZero t) → s.stack = top :: rest →
      top ≠ 0 → Step s (StepOut.next { s with pc := s.pc + 1 })
  | jzErr {s : VMState} {t : Nat} :
      s.bytecode[s.pc]? = some (Bytecode.JumpIfZero t) → s.stack = [] → Step s StepOut.err
  | jnzTaken {s : VMState} {t : Nat} {top : ℚ} {rest : List ℚ} :
      s.bytecode[s.pc]? = some (Bytecode.JumpIfNotZero t) → s.stack = top :: rest →
      top ≠ 0 → Step s (StepOut.next { s with pc := t })
  | jnzFall {s : VMState} {t : Nat} {top : ℚ} {rest : List ℚ} :
      s.bytecode[s.pc]? = some (Bytecode.JumpIfNotZero t) → s.stack = top :: rest →
      top = 0 → Step s (StepOut.next { s with pc := s.pc + 1 })
  | jnzErr {s : VMState} {t : Nat} :
      s.bytecode[s.pc]? = some (Bytecode.JumpIfNotZero t) → s.stack = [] →
      Step s StepOut.err
  | pop {s : VMState} :
      s.bytecode[s.pc]? = some Bytecode.Pop →
      Step s (StepOut.next { s with stack := s.stack.tail, pc := s.pc + 1 })
  | dup {s : VMState} {top : ℚ} {rest : List ℚ} :
      s.bytecode[s.pc]? = some Bytecode.Dup → s.stack = top :: rest →
      Step s (StepOut.next { s with stack := top :: top :: rest, pc := s.pc + 1 })
  | dupErr {s : VMState} :
      s.bytecode[s.pc]? = some Bytecode.Dup → s.stack = [] → Step s StepOut.err
  | callNative {s : VMState} {name : String} {argc : Nat} {f : List ℚ → ℚ} :
      s.bytecode[s.pc]? = some (Bytecode.Call name argc) → s.nativeFns name = some f →
      Step s (StepOut.next { s with stack := f (nativeArgs s.stack argc) :: s.stack.drop argc
                                    pc := s.pc + 1 })
  | callUser {s : VMState} {name : String} {argc addr : Nat} :
      s.bytecode[s.pc]? = some (Bytecode.Call name argc) → s.nativeFns name = none →
      s.userFns name = some addr →
      Step s (StepOut.next { s with stack := ((s.pc + 1 : Nat) : ℚ) :: s.stack, pc := addr })
  | callUnknown {s : VMState} {name : String} {argc : Nat} :
      s.bytecode[s.pc]? = some (Bytecode.Call name argc) → s.nativeFns name = none →
      s.userFns name = none → Step s (StepOut.next { s with pc := s.pc + 1 })
  | ret {s : VMState} {result retAddr : ℚ} {rest : List ℚ} :
      s.bytecode[s.pc]? = some Bytecode.Return → s.stack = result :: retAddr :: rest →
      Step s (StepOut.next { s with stack := result :: rest, pc := retAddr.floor.toNat })
  | retErr {s : VMState} :
      s.bytecode[s.pc]? = some Bytecode.Return → s.stack.length ≤ 1 → Step s StepOut.err
  | spawn {s : VMState} :
      s.bytecode[s.pc]? = some Bytecode.Spawn →
      Step s (StepOut.next { s with receivers := s.receivers ++ [s.stack.headD 0]
                                    threads := s.threads + 1
                                    pc := s.pc + 1 })
  | sync {s : VMState} :
      s.bytecode[s.pc]? = some Bytecode.Sync →
      Step s (StepOut.next { s with stack := s.receivers.reverse
                                    receivers := []
                                    threads := 0
                                    pc := s.pc + 1 })
  | barrier {s : VMState} :
      s.bytecode[s.pc]? = some Bytecode.Barrier →
      Step s (StepOut.next { s with threads := 0, pc := s.pc + 1 })

/-- Terminal executions of the relational semantics: `some t` when the
loop exits in state `t`, `none` when a panic aborts the run. -/
inductive ExecTo : VMState → Option VMState → Prop where
  | exit {s t : VMState} : Step s (StepOut.done t) → ExecTo s (some t)
  | fault {s : VMState} : Step s StepOut.err → ExecTo s none
  | trans {s u : VMState} {o : Option VMState} :
      Step s (StepOut.next u) → ExecTo u o → ExecTo s o


/-- Initial state of the determinism witness. -/
def detDemoInit : VMState :=
  VM.new [Bytecode.LoadConst 2, Bytecode.Halt]

/-- Final state of the determinism witness. -/
def detDemoFinal : VMState :=
  { VM.new [Bytecode.LoadConst 2, Bytecode.Halt] with stack := [2], pc := 1 }

/-- Evaluation of `nud` at some fuel (the Rust recursion needs no fuel;
the existential hides the artificial bound). -/
def NudEv (ts : List Token) (r : Expr × List Token) : Prop :=
  ∃ f, nudP f ts = some r

/-- Evaluation of `expr` at some fuel. -/
def ExprEv (m : Nat) (ts : List Token) (r : Expr × List Token) : Prop :=
  ∃ f, exprP f m ts = some r

/-- Evaluation of the infix loop at some fuel. -/
def LoopEv (m : Nat) (lhs : Expr) (ts : List Token) (r : Expr × List Token) : Prop :=
  ∃ f, ledLoopP f m lhs ts = some r

/-! ### Single-step characterisation lemmas -/

theorem step_pastEnd (s : VMState) (h : s.bytecode[s.pc]? = none) :
    step s = StepOut.done s := by
  rw [step, h]

theorem step_halt (s : VMState) (h : s.bytecode[s.pc]? = some Bytecode.Halt) :
    step s = StepOut.done s := by
  rw [step, h]

theorem step_loadConst (s : VMState) (v : ℚ)
    (h : s.bytecode[s.pc]? = some (Bytecode.LoadConst v)) :
    step s = StepOut.next { s with stack := v :: s.stack, pc := s.pc + 1 } := by
  rw [step, h]

theorem step_neg (s : VMState) (v : ℚ) (rest : List ℚ)
    (h : s.bytecode[s.pc]? = some Bytecode.Neg) (hst : s.stack = v :: rest) :
    step s = StepOut.next { s with stack := -v :: rest, pc := s.pc + 1 } := by
  simp only [step, h]
  rw [hst]

theorem step_neg_underflow (s : VMState)
    (h : s.bytecode[s.pc]? = some Bytecode.Neg) (hst : s.stack = []) :
    step s = StepOut.err := by
  simp only [step, h]
  rw [hst]

theorem binopStep_ok (s : VMState) (f : ℚ → ℚ → ℚ) (b a : ℚ) (rest : List ℚ)
    (hst : s.stack = b :: a :: rest) :
    binopStep s f = StepOut.next { s with stack := f a b :: rest, pc := s.pc + 1 } := by
  simp only [binopStep]
  rw [hst]

theorem binopStep_underflow (s : VMState) (f : ℚ → ℚ → ℚ)
    (hst : s.stack.length ≤ 1) :
    binopStep s f = StepOut.err := by
  simp only [binopStep]
  match h : s.stack with
  | [] => rfl
  | [x] => rfl
  | b :: a :: rest => rw [h] at hst; simp at hst

theorem step_add (s : VMState) (h : s.bytecode[s.pc]? = some Bytecode.Add) :
    step s = binopStep s (fun a b => a + b) := by
  rw [step, h]

theorem step_sub (s : VMState) (h : s.bytecode[s.pc]? = some Bytecode.Sub) :
    step s = binopStep s (fun a b => a - b) := by
  rw [step, h]

theorem step_mul (s : VMState) (h : s.bytecode[s.pc]? = some Bytecode.Mul) :
    step s = binopStep s (fun a b => a * b) := by
  rw [step, h]

theorem step_div (s : VMState) (h : s.bytecode[s.pc]? = some Bytecode.Div) :
    step s = binopStep s (fun a b => a / b) := by
  rw [step, h]

theorem step_loadVar (s : VMState) (i : Nat) (v : ℚ)
    (h : s.bytecode[s.pc]? = some (Bytecode.LoadVar i)) (hm : s.memory i = some v) :
    step s = StepOut.next { s with stack := v :: s.stack, pc := s.pc + 1 } := by
  simp only [step, h]
  rw [hm]

theorem step_loadVar_unbound (s : VMState) (i : Nat)
    (h : s.bytecode[s.pc]? = some (Bytecode.LoadVar i)) (hm : s.memory i = none) :
    step s = StepOut.err := by
  simp only [step, h]
  rw [hm]

theorem step_storeVar (s : VMState) (i : Nat) (v : ℚ) (rest : List ℚ)
    (h : s.bytecode[s.pc]? = some (Bytecode.StoreVar i)) (hst : s.stack = v :: rest) :
    step s = StepOut.next { s with stack := rest
                                   memory := fun j => if j = i then some v else s.memory j
                                   pc := s.pc + 1 } := by
  simp only [step, h]
  rw [hst]

theorem step_storeVar_underflow (s : VMState) (i : Nat)
    (h : s.bytecode[s.pc]? = some (Bytecode.StoreVar i)) (hst : s.stack = []) :
    step s = StepOut.err := by
  simp only [step, h]
  rw [hst]

theorem step_jump (s : VMState) (t : Nat)
    (h : s.bytecode[s.pc]? = some (Bytecode.Jump t)) :
    step s = StepOut.next { s with pc := t } := by
  rw [step, h]

theorem step_jz_underflow (s : VMState) (t : Nat)
    (h : s.bytecode[s.pc]? = some (Bytecode.JumpIfZero t)) (hst : s.stack = []) :
    step s = StepOut.err := by
  simp only [step, h]
  rw [hst]

theorem step_jnz_underflow (s : VMState) (t : Nat)
    (h : s.bytecode[s.pc]? = some (Bytecode.JumpIfNotZero t)) (hst : s.stack = []) :
    step s = StepOut.err := by
  simp only [step, h]
  rw [hst]

theorem step_dup (s : VMState) (top : ℚ) (rest : List ℚ)
    (h : s.bytecode[s.pc]? = some Bytecode.Dup) (hst : s.stack = top :: rest) :
    step s = StepOut.next { s with stack := top :: top :: rest, pc := s.pc + 1 } := by
  simp only [step, h]
  rw [hst]

theorem step_dup_underflow (s : VMState)
    (h : s.bytecode[s.pc]? = some Bytecode.Dup) (hst : s.stack = []) :
    step s = StepOut.err := by
  simp only [step, h]
  rw [hst]

theorem step_pop (s : VMState) (h : s.bytecode[s.pc]? = some Bytecode.Pop) :
    step s = StepOut.next { s with stack := s.stack.tail, pc := s.pc + 1 } := by
  rw [step, h]

theorem step_call_native (s : VMState) (name : String) (argc : Nat) (f : List ℚ → ℚ)
    (h : s.bytecode[s.pc]? = some (Bytecode.Call name argc))
    (hf : s.nativeFns name = some f) :
    step s = StepOut.next { s with stack := f (nativeArgs s.stack argc) :: s.stack.drop argc
                                   pc := s.pc + 1 } := by
  simp only [step, h]
  rw [hf]

theorem step_call_user (s : VMState) (name : String) (argc : Nat) (addr : Nat)
    (h : s.bytecode[s.pc]? = some (Bytecode.Call name argc))
    (hn : s.nativeFns name = none) (hu : s.userFns name = some addr) :
    step s = StepOut.next { s with stack := ((s.pc + 1 : Nat) : ℚ) :: s.stack, pc := addr } := by
  simp only [step, h]
  rw [hn, hu]

theorem step_call_unknown (s : VMState) (name : String) (argc : Nat)
    (h : s.bytecode[s.pc]? = some (Bytecode.Call name argc))
    (hn : s.nativeFns name = none) (hu : s.userFns name = none) :
    step s = StepOut.next { s with pc := s.pc + 1 } := by
  simp only [step, h]
  rw [hn, hu]

theorem step_return (s : VMState) (result retAddr : ℚ) (rest : List ℚ)
    (h : s.bytecode[s.pc]? = some Bytecode.Return)
    (hst : s.stack = result :: retAddr :: rest) :
    step s = StepOut.next { s with stack := result :: rest, pc := retAddr.floor.toNat } := by
  simp only [step, h]
  rw [hst]

theorem step_return_underflow (s : VMState)
    (h : s.bytecode[s.pc]? = some Bytecode.Return) (hst : s.stack.length ≤ 1) :
    step s = StepOut.err := by
  simp only [step, h]
  match hs : s.stack with
  | [] => rfl
  | [x] => rfl
  | x :: y :: rest => rw [hs] at hst; simp at hst

theorem step_spawn (s : VMState) (h : s.bytecode[s.pc]? = some Bytecode.Spawn) :
    step s = StepOut.next { s with receivers := s.receivers ++ [s.stack.headD 0]
                                   threads := s.threads + 1
                                   pc := s.pc + 1 } := by
  rw [step, h]

theorem step_sync (s : VMState) (h : s.bytecode[s.pc]? = some Bytecode.Sync) :
    step s = StepOut.next { s with stack := s.receivers.reverse
                                   receivers := []
                                   threads := 0
                                   pc := s.pc + 1 } := by
  rw [step, h]

theorem step_barrier (s : VMState) (h : s.bytecode[s.pc]? = some Bytecode.Barrier) :
    step s = StepOut.next { s with threads := 0, pc := s.pc + 1 } := by
  rw [step, h]

/-- A fatal step aborts the whole run: no result is produced. -/
theorem execute_fault (s : VMState) (n : Nat) (h : step s = StepOut.err) :
    execute (n + 1) s = ExecResult.fault := by
  rw [execute, h]

/-- Executing any instruction other than `Spawn` and `Sync` leaves the
receiver queue unchanged. -/
theorem step_preserves_receivers (s t : VMState)
    (h : step s = StepOut.next t)
    (hi : ∀ i, s.bytecode[s.pc]? = some i → i ≠ Bytecode.Spawn ∧ i ≠ Bytecode.Sync) :
    t.receivers = s.receivers := by
  cases hfetch : s.bytecode[s.pc]? with
  | none => rw [step, hfetch] at h; cases h
  | some instr =>
    rw [step, hfetch] at h
    cases instr <;>
      first
        | exact absurd rfl (hi _ hfetch).1
        | exact absurd rfl (hi _ hfetch).2
        | (cases h <;> rfl)
        | (simp only [binopStep] at h
           split at h <;> (try split at h) <;> (cases h <;> rfl))

/-! ### Claim C2 (amended), C5, C6, C9 -/

/-- C2 (amended): executing `Sync` clears the evaluation stack, joins all
threads and drains every pending receiver in spawn order, leaving exactly
one stack value per pending receiver — that is, one value per `Spawn`
issued since the previous `Sync` (a `Barrier` joins threads but does not
drain receivers, so spawns before a `Barrier` still deliver at the next
`Sync`).  The second and third conjuncts show that the receiver queue
records exactly the values sampled by the `Spawn` instructions executed
since the last `Sync`, in spawn order. -/
theorem sync_result_count :
    (∀ (s : VMState) (N : Nat),
      s.bytecode[s.pc]? = some Bytecode.Sync →
      s.receivers.length = N →
      ∃ t, step s = StepOut.next t ∧ t.stack = s.receivers.reverse ∧
        t.stack.length = N ∧ t.receivers = [] ∧ t.threads = 0 ∧
        t.pc = s.pc + 1 ∧ t.memory = s.memory) ∧
    (∀ s t : VMState, step s = StepOut.next t →
      s.bytecode[s.pc]? = some Bytecode.Spawn →
      t.receivers = s.receivers ++ [s.stack.headD 0]) ∧
    (∀ s t : VMState, step s = StepOut.next t →
      (∀ i, s.bytecode[s.pc]? = some i → i ≠ Bytecode.Spawn ∧ i ≠ Bytecode.Sync) →
      t.receivers = s.receivers) := by
  refine ⟨?_, ?_, step_preserves_receivers⟩
  · intro s N hfetch hN
    exact ⟨_, step_sync s hfetch, rfl, by simpa using hN, rfl, rfl, rfl, rfl⟩
  · intro s t h hfetch
    rw [step_spawn s hfetch] at h
    cases h
    rfl

/-- Witness for C2: a state with two pending spawn results ends up with
exactly those two values on the stack, in spawn order. -/
theorem sync_result_count_witness :
    ∃ t, step syncDemo = StepOut.next t ∧ t.stack = syncDemo.receivers.reverse ∧
      t.stack.length = 2 ∧ t.receivers = [] ∧ t.threads = 0 ∧
      t.pc = syncDemo.pc + 1 ∧ t.memory = syncDemo.memory :=
  sync_result_count.1 syncDemo 2 rfl rfl

/-- C6: `Barrier` leaves the evaluation stack exactly equal to its
pre-`Barrier` contents, reads no channel (the receiver queue is untouched),
joins every previously spawned unit (no unjoined threads remain), leaves
memory unchanged and advances the program counter by one. -/
theorem barrier_frame (s : VMState)
    (hfetch : s.bytecode[s.pc]? = some Bytecode.Barrier) :
    ∃ t, step s = StepOut.next t ∧ t.stack = s.stack ∧
      t.receivers = s.receivers ∧ t.threads = 0 ∧
      t.memory = s.memory ∧ t.pc = s.pc + 1 :=
  ⟨_, step_barrier s hfetch, rfl, rfl, rfl, rfl, rfl⟩

/-- Witness for C6 at a concrete state with one outstanding spawn. -/
theorem barrier_frame_witness :
    ∃ t, step barrierDemo = StepOut.next t ∧ t.stack = barrierDemo.stack ∧
      t.receivers = barrierDemo.receivers ∧ t.threads = 0 ∧
      t.memory = barrierDemo.memory ∧ t.pc = barrierDemo.pc + 1 :=
  barrier_frame barrierDemo rfl

/-- C9: `Spawn` reads the top of stack without popping (defaulting to `0`
on an empty stack), never fails, hands the sampled value to the spawned
unit, and advances the program counter by one. -/
theorem spawn_reads_top_without_popping (s : VMState)
    (hfetch : s.bytecode[s.pc]? = some Bytecode.Spawn) :
    ∃ t, step s = StepOut.next t ∧ t.stack = s.stack ∧
      t.receivers = s.receivers ++ [s.stack.headD 0] ∧
      t.threads = s.threads + 1 ∧ t.pc = s.pc + 1 ∧
      (s.stack = [] → t.receivers = s.receivers ++ [0]) :=
  ⟨_, step_spawn s hfetch, rfl, rfl, rfl, rfl, fun h => by simp [h]⟩

/-- Witness for C9: `Spawn` on an empty stack spawns the default value `0`
and leaves the stack empty. -/
theorem spawn_reads_top_without_popping_witness :
    ∃ t, step spawnDemo = StepOut.next t ∧ t.stack = spawnDemo.stack ∧
      t.receivers = spawnDemo.receivers ++ [spawnDemo.stack.headD 0] ∧
      t.threads = spawnDemo.threads + 1 ∧ t.pc = spawnDemo.pc + 1 ∧
      (spawnDemo.stack = [] → t.receivers = spawnDemo.receivers ++ [0]) :=
  spawn_reads_top_without_popping spawnDemo rfl

/-- C5: calling a function name registered neither as a native nor as a
user function does not abort the run: execution continues at the next
instruction with the stack and the memory map unchanged. -/
theorem unknown_call_is_noop (s : VMState) (name : String) (argc : Nat)
    (hfetch : s.bytecode[s.pc]? = some (Bytecode.Call name argc))
    (hnat : s.nativeFns name = none) (husr : s.userFns name = none) :
    ∃ t, step s = StepOut.next t ∧ t.stack = s.stack ∧
      t.memory = s.memory ∧ t.pc = s.pc + 1 :=
  ⟨_, step_call_unknown s name argc hfetch hnat husr, rfl, rfl, rfl⟩

/-- Witness for C5 at a concrete unregistered function name. -/
theorem unknown_call_is_noop_witness :
    ∃ t, step unknownCallDemo = StepOut.next t ∧ t.stack = unknownCallDemo.stack ∧
      t.memory = unknownCallDemo.memory ∧ t.pc = unknownCallDemo.pc + 1 :=
  unknown_call_is_noop unknownCallDemo "frobnicate" 2 rfl rfl rfl

/-! ### Frame lemmas for the execution loop -/

/-- A continuing step never modifies the loaded bytecode. -/
theorem step_preserves_bytecode (s t : VMState) (h : step s = StepOut.next t) :
    t.bytecode = s.bytecode := by
  cases hfetch : s.bytecode[s.pc]? with
  | none => rw [step, hfetch] at h; cases h
  | some instr =>
    rw [step, hfetch] at h
    cases instr <;>
      first
        | (cases h <;> rfl)
        | (simp only [binopStep] at h
           split at h <;> (try split at h) <;> (cases h <;> rfl))

/-- A loop exit returns the state unchanged. -/
theorem step_done_eq (s t : VMState) (h : step s = StepOut.done t) : t = s := by
  cases hfetch : s.bytecode[s.pc]? with
  | none => rw [step, hfetch] at h; cases h; rfl
  | some instr =>
    rw [step, hfetch] at h
    cases instr <;>
      first
        | (cases h <;> rfl)
        | (simp only [binopStep] at h
           split at h <;> (try split at h) <;> (cases h <;> rfl))

/-- A continuing step only happens when the program counter is in range. -/
theorem step_next_inRange (s t : VMState) (h : step s = StepOut.next t) :
    s.pc < s.bytecode.length := by
  by_contra hge
  rw [step_pastEnd s (List.getElem?_eq_none (Nat.le_of_not_lt hge))] at h
  cases h

/-- Appending instructions after the current code leaves every in-range
dispatch unchanged (the appended state steps in lockstep). -/
theorem step_extend (s : VMState) (S : List Bytecode) (hlt : s.pc < s.bytecode.length) :
    step { s with bytecode := s.bytecode ++ S } =
      match step s with
      | StepOut.next t => StepOut.next { t with bytecode := t.bytecode ++ S }
      | StepOut.err => StepOut.err
      | StepOut.done t => StepOut.done { t with bytecode := t.bytecode ++ S } := by
  cases hfetch : s.bytecode[s.pc]? with
  | none => rw [List.getElem?_eq_none_iff] at hfetch; omega
  | some instr =>
    have hfetch2 : (s.bytecode ++ S)[s.pc]? = some instr := by
      rw [List.getElem?_append_left hlt]; exact hfetch
    cases instr with
    | Neg =>
      rcases h : s.stack with _ | ⟨v, rest⟩ <;> simp only [step, hfetch, hfetch2, h] <;> rfl
    | Add =>
      rcases h : s.stack with _ | ⟨b, _ | ⟨a, rest⟩⟩ <;>
        simp only [step, hfetch, hfetch2, binopStep, h] <;> rfl
    | Sub =>
      rcases h : s.stack with _ | ⟨b, _ | ⟨a, rest⟩⟩ <;>
        simp only [step, hfetch, hfetch2, binopStep, h] <;> rfl
    | Mul =>
      rcases h : s.stack with _ | ⟨b, _ | ⟨a, rest⟩⟩ <;>
        simp only [step, hfetch, hfetch2, binopStep, h] <;> rfl
    | Div =>
      rcases h : s.stack with _ | ⟨b, _ | ⟨a, rest⟩⟩ <;>
        simp only [step, hfetch, hfetch2, binopStep, h] <;> rfl
    | LoadConst v => simp only [step, hfetch, hfetch2]
    | LoadVar i =>
      rcases h : s.memory i with _ | v <;> simp only [step, hfetch, hfetch2, h] <;> rfl
    | StoreVar i =>
      rcases h : s.stack with _ | ⟨v, rest⟩ <;> simp only [step, hfetch, hfetch2, h] <;> rfl
    | Jump t => simp only [step, hfetch, hfetch2]
    | JumpIfZero t =>
      rcases h : s.stack with _ | ⟨top, rest⟩ <;> simp only [step, hfetch, hfetch2, h] <;>
        (try rfl) <;> split <;> rfl
    | JumpIfNotZero t =>
      rcases h : s.stack with _ | ⟨top, rest⟩ <;> simp only [step, hfetch, hfetch2, h] <;>
        (try rfl) <;> split <;> rfl
    | Pop => simp only [step, hfetch, hfetch2]
    | Dup =>
      rcases h : s.stack with _ | ⟨top, rest⟩ <;> simp only [step, hfetch, hfetch2, h] <;> rfl
    | Call name argc =>
      rcases hn : s.nativeFns name with _ | f
      · rcases hu : s.userFns name with _ | addr <;>
          simp only [step, hfetch, hfetch2, hn, hu] <;> rfl
      · simp only [step, hfetch, hfetch2, hn]
    | Return =>
      rcases h : s.stack with _ | ⟨r, _ | ⟨a, rest⟩⟩ <;>
        simp only [step, hfetch, hfetch2, h] <;> rfl
    | Halt => simp only [step, hfetch, hfetch2]
    | Spawn => simp only [step, hfetch, hfetch2]
    | Sync => simp only [step, hfetch, hfetch2]
    | Barrier => simp only [step, hfetch, hfetch2]

/-- Executions that exit the loop at a `Halt` instruction are unchanged by
appending extra code after the program. -/
theorem execute_append (S : List Bytecode) :
    ∀ (n : Nat) (s t : VMState), execute n s = ExecResult.ok t →
      t.bytecode[t.pc]? = some Bytecode.Halt →
      execute n { s with bytecode := s.bytecode ++ S } =
        ExecResult.ok { t with bytecode := t.bytecode ++ S } := by
  intro n
  induction n with
  | zero => intro s t h _; cases h
  | succ n ih =>
    intro s t h hhalt
    cases hs : step s with
    | done u =>
      rw [execute, hs] at h
      cases h
      have hts : t = s := step_done_eq s t hs
      subst hts
      have hlt : t.pc < t.bytecode.length := by
        by_contra hge
        rw [List.getElem?_eq_none (Nat.le_of_not_lt hge)] at hhalt
        cases hhalt
      have hext := step_extend t S hlt
      rw [hs] at hext
      rw [execute, hext]
    | err => rw [execute, hs] at h; cases h
    | next u =>
      rw [execute, hs] at h
      have hlt : s.pc < s.bytecode.length := step_next_inRange s u hs
      have hbc : u.bytecode = s.bytecode := step_preserves_bytecode s u hs
      have hext := step_extend s S hlt
      rw [hs] at hext
      rw [execute, hext]
      exact ih u t h hhalt

/-- C4 (amended): if executing `P` exits the loop at a `Halt` instruction
(rather than by the program counter running past the end of `P`), then
appending any instruction sequence `S` after `P` leaves the observed
result of the run unchanged. -/
theorem append_after_halt_preserves_run (P S : List Bytecode) (n : Nat) (t : VMState)
    (hrun : execute n (VM.new P) = ExecResult.ok t)
    (hhalt : t.bytecode[t.pc]? = some Bytecode.Halt) :
    runOut (P ++ S) n = runOut P n := by
  have hext := execute_append S n (VM.new P) t hrun hhalt
  have hbase : ({ VM.new P with bytecode := (VM.new P).bytecode ++ S } : VMState) =
      VM.new (P ++ S) := rfl
  rw [hbase] at hext
  rw [runOut, runOut, hrun, hext]

/-- Witness for C4: appending a `LoadConst` after a program that halts via
`Halt` does not change the result. -/
theorem append_after_halt_preserves_run_witness :
    runOut ([Bytecode.LoadConst 7, Bytecode.Halt] ++ [Bytecode.LoadConst 9]) 3 =
      runOut [Bytecode.LoadConst 7, Bytecode.Halt] 3 :=
  append_after_halt_preserves_run [Bytecode.LoadConst 7, Bytecode.Halt]
    [Bytecode.LoadConst 9] 3
    { VM.new [Bytecode.LoadConst 7, Bytecode.Halt] with stack := [7], pc := 1 }
    rfl rfl

/-- Counterexample to C4 as stated: this `P` contains a `Halt`, but its
execution ends by jumping past the end of `P`, not by reaching the `Halt`;
appending `S` then changes the result from `0` to `9`. -/
theorem append_after_halt_changes_result :
    Bytecode.Halt ∈ [Bytecode.Jump 2, Bytecode.Halt] ∧
    runOut ([Bytecode.Jump 2, Bytecode.Halt] ++ [Bytecode.LoadConst 9, Bytecode.Halt]) 10 ≠
      runOut [Bytecode.Jump 2, Bytecode.Halt] 10 := by
  refine ⟨by simp, ?_⟩
  with_unfolding_all decide

/-- C3 (amended): every stack-underflow or unbound-variable condition of
an arithmetic instruction, `Neg`, `Dup`, `JumpIfZero`, `JumpIfNotZero`,
`StoreVar`, `Return` or `LoadVar` is fatal, a fatal step aborts the whole
run with no result, and a bare identifier is an unbound-identifier
lowering failure — but a `Call` to a registered native function with
fewer stack values than `argc` is NOT fatal: the missing arguments are
filled with the default `0.0` and the call proceeds. -/
theorem underflow_conditions_fatal :
    (∀ (s : VMState) (i : Bytecode),
      i = Bytecode.Add ∨ i = Bytecode.Sub ∨ i = Bytecode.Mul ∨ i = Bytecode.Div →
      s.bytecode[s.pc]? = some i → s.stack.length ≤ 1 → step s = StepOut.err) ∧
    (∀ s : VMState, s.bytecode[s.pc]? = some Bytecode.Neg → s.stack = [] →
      step s = StepOut.err) ∧
    (∀ s : VMState, s.bytecode[s.pc]? = some Bytecode.Dup → s.stack = [] →
      step s = StepOut.err) ∧
    (∀ (s : VMState) (tg : Nat), s.bytecode[s.pc]? = some (Bytecode.JumpIfZero tg) →
      s.stack = [] → step s = StepOut.err) ∧
    (∀ (s : VMState) (tg : Nat), s.bytecode[s.pc]? = some (Bytecode.JumpIfNotZero tg) →
      s.stack = [] → step s = StepOut.err) ∧
    (∀ (s : VMState) (i : Nat), s.bytecode[s.pc]? = some (Bytecode.StoreVar i) →
      s.stack = [] → step s = StepOut.err) ∧
    (∀ s : VMState, s.bytecode[s.pc]? = some Bytecode.Return → s.stack.length ≤ 1 →
      step s = StepOut.err) ∧
    (∀ (s : VMState) (i : Nat), s.bytecode[s.pc]? = some (Bytecode.LoadVar i) →
      s.memory i = none → step s = StepOut.err) ∧
    (∀ name : String, compileExpr (Expr.Ident name) = none) ∧
    (∀ (s : VMState) (n : Nat), step s = StepOut.err →
      execute (n + 1) s = ExecResult.fault) ∧
    (∀ (s : VMState) (name : String) (argc : Nat) (f : List ℚ → ℚ),
      s.bytecode[s.pc]? = some (Bytecode.Call name argc) → s.nativeFns name = some f →
      step s = StepOut.next { s with stack := f (nativeArgs s.stack argc) :: s.stack.drop argc
                                     pc := s.pc + 1 }) := by
  refine ⟨?_, step_neg_underflow, step_dup_underflow, step_jz_underflow,
    step_jnz_underflow, step_storeVar_underflow, step_return_underflow,
    step_loadVar_unbound, fun _ => rfl, execute_fault, step_call_native⟩
  intro s i hi hfetch hlen
  rcases hi with rfl | rfl | rfl | rfl
  · rw [step_add s hfetch]; exact binopStep_underflow s _ hlen
  · rw [step_sub s hfetch]; exact binopStep_underflow s _ hlen
  · rw [step_mul s hfetch]; exact binopStep_underflow s _ hlen
  · rw [step_div s hfetch]; exact binopStep_underflow s _ hlen

/-- Witness for C3 at concrete states: `Add` and `Return` on an empty
stack fault and abort the run; a native call on an empty stack proceeds. -/
theorem underflow_conditions_fatal_witness :
    step (VM.new [Bytecode.Add]) = StepOut.err ∧
    execute 1 (VM.new [Bytecode.Add]) = ExecResult.fault ∧
    step (VM.new [Bytecode.Return]) = StepOut.err ∧
    step (VM.new [Bytecode.Call "print" 1]) =
      StepOut.next { VM.new [Bytecode.Call "print" 1] with
                       stack := [0], pc := 1 } := by
  refine ⟨underflow_conditions_fatal.1 (VM.new [Bytecode.Add]) Bytecode.Add
      (Or.inl rfl) rfl (by decide),
    underflow_conditions_fatal.2.2.2.2.2.2.2.2.2.1 (VM.new [Bytecode.Add]) 0
      (underflow_conditions_fatal.1 (VM.new [Bytecode.Add]) Bytecode.Add
        (Or.inl rfl) rfl (by decide)),
    underflow_conditions_fatal.2.2.2.2.2.2.1 (VM.new [Bytecode.Return]) rfl (by decide),
    ?_⟩
  have h := underflow_conditions_fatal.2.2.2.2.2.2.2.2.2.2
    (VM.new [Bytecode.Call "print" 1]) "print" 1 (fun _ => 0) rfl rfl
  rw [h]
  with_unfolding_all rfl

/-- Counterexample to C3 as stated: a `Call` to the registered native
function `print` with `argc = 1` on an empty stack does not abort; the
missing argument defaults to `0.0`, the call is performed and the run
completes normally with result `0`. -/
theorem native_call_underflow_no_abort :
    runOut [Bytecode.Call "print" 1, Bytecode.Halt] 3 = some 0 := by
  with_unfolding_all decide

/-- C7: the hand-assembled `add1` scenario runs to `11`; in general a
`Call` resolving to a user function pushes `pc + 1` as a float-encoded
return address onto the evaluation stack and jumps to the entry address,
and `Return` pops the result, pops the return address (truncating to an
integer via the floor), sets the program counter to it and pushes the
result back. -/
theorem call_return_protocol :
    runStack add1State 20 = some [11] ∧
    (∀ (s : VMState) (name : String) (argc addr : Nat),
      s.bytecode[s.pc]? = some (Bytecode.Call name argc) →
      s.nativeFns name = none → s.userFns name = some addr →
      step s = StepOut.next { s with stack := ((s.pc + 1 : Nat) : ℚ) :: s.stack
                                     pc := addr }) ∧
    (∀ (s : VMState) (result retAddr : ℚ) (rest : List ℚ),
      s.bytecode[s.pc]? = some Bytecode.Return → s.stack = result :: retAddr :: rest →
      step s = StepOut.next { s with stack := result :: rest
                                     pc := retAddr.floor.toNat }) := by
  refine ⟨?_, step_call_user, step_return⟩
  with_unfolding_all decide

/-- Witness for C7: the protocol at concrete call and return states. -/
theorem call_return_protocol_witness :
    step userCallDemo = StepOut.next { userCallDemo with
      stack := ((userCallDemo.pc + 1 : Nat) : ℚ) :: userCallDemo.stack, pc := 0 } ∧
    step returnDemo = StepOut.next { returnDemo with
      stack := [11], pc := (3 : ℚ).floor.toNat } :=
  ⟨call_return_protocol.2.1 userCallDemo "f" 0 0 rfl rfl rfl,
   call_return_protocol.2.2 returnDemo 11 3 [] rfl rfl⟩

/-- Counterexample to C2 as stated: in `spawnBarrierSyncProg` one `Spawn`
precedes the `Barrier` and no `Spawn` occurs between the `Barrier` and the
`Sync`, so the claim requires `Sync` to leave zero values on the stack;
but the `Barrier` joined the thread without draining its receiver, and the
`Sync` still collects the earlier spawn's value, halting with stack
`[5]`. -/
theorem sync_after_barrier_still_collects :
    nextN 3 (VM.new spawnBarrierSyncProg) = some afterBarrierState ∧
    afterBarrierState.bytecode[afterBarrierState.pc]? = some Bytecode.Sync ∧
    step afterBarrierState = StepOut.next
      { afterBarrierState with stack := [5], receivers := [], threads := 0, pc := 4 } ∧
    runStack (VM.new spawnBarrierSyncProg) 6 = some [5] := by
  refine ⟨by with_unfolding_all rfl, rfl, by with_unfolding_all rfl, ?_⟩
  with_unfolding_all decide

/-- C8: when the first token-starting character (after the whitespace and
comment skipping phase) is a comma or a brace (written here as the
characters with codes 0x2c, 0x7b, 0x7d), `next_token` hits the
unexpected-character panic: the token type has no comma, brace or `fn`
keyword variant, so no token stream this scanner produces can reach the
parser's multi-argument or function-definition syntax. -/
theorem scanner_rejects_comma_brace (s : Scanner) (c : Char)
    (hskip : s.skipPhase.current = some c)
    (hc : c = ',' ∨ c = '\x7b' ∨ c = '\x7d') :
    s.nextToken = none := by
  rcases hc with rfl | rfl | rfl <;>
    (simp only [Scanner.nextToken]; rw [hskip]; rfl)

/-- Witness for C8: scanning a source string that starts with a comma
fails. -/
theorem scanner_rejects_comma_brace_witness :
    (Scanner.new ",").nextToken = none :=
  scanner_rejects_comma_brace (Scanner.new ",") ',' rfl (Or.inl rfl)

/-! ### Relational presentation of the execution loop (claim C10) -/

/-- The relational dispatch agrees with the executable one: any related
outcome is the computed outcome. -/
theorem step_complete {s : VMState} {o : StepOut} (h : Step s o) : step s = o := by
  cases h with
  | pastEnd h => exact step_pastEnd s h
  | halted h => exact step_halt s h
  | neg h hst => exact step_neg s _ _ h hst
  | negErr h hst => exact step_neg_underflow s h hst
  | add h hst => rw [step_add s h]; exact binopStep_ok s _ _ _ _ hst
  | addErr h hlen => rw [step_add s h]; exact binopStep_underflow s _ hlen
  | sub h hst => rw [step_sub s h]; exact binopStep_ok s _ _ _ _ hst
  | subErr h hlen => rw [step_sub s h]; exact binopStep_underflow s _ hlen
  | mul h hst => rw [step_mul s h]; exact binopStep_ok s _ _ _ _ hst
  | mulErr h hlen => rw [step_mul s h]; exact binopStep_underflow s _ hlen
  | div h hst => rw [step_div s h]; exact binopStep_ok s _ _ _ _ hst
  | divErr h hlen => rw [step_div s h]; exact binopStep_underflow s _ hlen
  | loadConst h => exact step_loadConst s _ h
  | loadVar h hm => exact step_loadVar s _ _ h hm
  | loadVarErr h hm => exact step_loadVar_unbound s _ h hm
  | storeVar h hst => exact step_storeVar s _ _ _ h hst
  | storeVarErr h hst => exact step_storeVar_underflow s _ h hst
  | jump h => exact step_jump s _ h
  | jzTaken h hst htop => simp only [step, h]; rw [hst]; simp only [if_pos htop]
  | jzFall h hst htop => simp only [step, h]; rw [hst]; simp only [if_neg htop]
  | jzErr h hst => exact step_jz_underflow s _ h hst
  | jnzTaken h hst htop => simp only [step, h]; rw [hst]; simp only [if_pos htop]
  | jnzFall h hst htop =>
    simp only [step, h]; rw [hst]; simp only [if_neg (not_not_intro htop)]
  | jnzErr h hst => exact step_jnz_underflow s _ h hst
  | pop h => exact step_pop s h
  | dup h hst => exact step_dup s _ _ h hst
  | dupErr h hst => exact step_dup_underflow s h hst
  | callNative h hf => exact step_call_native s _ _ _ h hf
  | callUser h hn hu => exact step_call_user s _ _ _ h hn hu
  | callUnknown h hn hu => exact step_call_unknown s _ _ h hn hu
  | ret h hst => exact step_return s _ _ _ h hst
  | retErr h hlen => exact step_return_underflow s h hlen
  | spawn h => exact step_spawn s h
  | sync h => exact step_sync s h
  | barrier h => exact step_barrier s h

/-- The relational dispatch is functional: one state, one outcome. -/
theorem step_deterministic {s : VMState} {o1 o2 : StepOut}
    (h1 : Step s o1) (h2 : Step s o2) : o1 = o2 :=
  (step_complete h1).symm.trans (step_complete h2)

/-- Terminal outcomes of the relational semantics are unique. -/
theorem execTo_unique {s : VMState} {o1 o2 : Option VMState}
    (h1 : ExecTo s o1) (h2 : ExecTo s o2) : o1 = o2 := by
  induction h1 generalizing o2 with
  | exit hst =>
    cases h2 with
    | exit hst2 => cases step_deterministic hst hst2; rfl
    | fault hst2 => cases step_deterministic hst hst2
    | trans hst2 _ => cases step_deterministic hst hst2
  | fault hst =>
    cases h2 with
    | exit hst2 => cases step_deterministic hst hst2
    | fault hst2 => rfl
    | trans hst2 _ => cases step_deterministic hst hst2
  | trans hst _ ih =>
    cases h2 with
    | exit hst2 => cases step_deterministic hst hst2
    | fault hst2 => cases step_deterministic hst hst2
    | trans hst2 h2rest => cases step_deterministic hst hst2; exact ih h2rest

/-- The executable dispatch satisfies the relational one: every state is
related to its computed outcome (the relation is total and agrees with
`step`). -/
theorem step_sound (s : VMState) : Step s (step s) := by
  cases hfetch : s.bytecode[s.pc]? with
  | none => rw [step_pastEnd s hfetch]; exact Step.pastEnd hfetch
  | some instr =>
    cases instr with
    | Neg =>
      rcases hst : s.stack with _ | ⟨v, rest⟩
      · rw [step_neg_underflow s hfetch hst]; exact Step.negErr hfetch hst
      · rw [step_neg s v rest hfetch hst]; exact Step.neg hfetch hst
    | Add =>
      rcases hst : s.stack with _ | ⟨b, _ | ⟨a, rest⟩⟩
      · rw [step_add s hfetch, binopStep_underflow s _ (by simp [hst])]
        exact Step.addErr hfetch (by simp [hst])
      · rw [step_add s hfetch, binopStep_underflow s _ (by simp [hst])]
        exact Step.addErr hfetch (by simp [hst])
      · rw [step_add s hfetch, binopStep_ok s _ b a rest hst]
        exact Step.add hfetch hst
    | Sub =>
      rcases hst : s.stack with _ | ⟨b, _ | ⟨a, rest⟩⟩
      · rw [step_sub s hfetch, binopStep_underflow s _ (by simp [hst])]
        exact Step.subErr hfetch (by simp [hst])
      · rw [step_sub s hfetch, binopStep_underflow s _ (by simp [hst])]
        exact Step.subErr hfetch (by simp [hst])
      · rw [step_sub s hfetch, binopStep_ok s _ b a rest hst]
        exact Step.sub hfetch hst
    | Mul =>
      rcases hst : s.stack with _ | ⟨b, _ | ⟨a, rest⟩⟩
      · rw [step_mul s hfetch, binopStep_underflow s _ (by simp [hst])]
        exact Step.mulErr hfetch (by simp [hst])
      · rw [step_mul s hfetch, binopStep_underflow s _ (by simp [hst])]
        exact Step.mulErr hfetch (by simp [hst])
      · rw [step_mul s hfetch, binopStep_ok s _ b a rest hst]
        exact Step.mul hfetch hst
    | Div =>
      rcases hst : s.stack with _ | ⟨b, _ | ⟨a, rest⟩⟩
      · rw [step_div s hfetch, binopStep_underflow s _ (by simp [hst])]
        exact Step.divErr hfetch (by simp [hst])
      · rw [step_div s hfetch, binopStep_underflow s _ (by simp [hst])]
        exact Step.divErr hfetch (by simp [hst])
      · rw [step_div s hfetch, binopStep_ok s _ b a rest hst]
        exact Step.div hfetch hst
    | LoadConst v => rw [step_loadConst s v hfetch]; exact Step.loadConst hfetch
    | LoadVar i =>
      rcases hm : s.memory i with _ | v
      · rw [step_loadVar_unbound s i hfetch hm]; exact Step.loadVarErr hfetch hm
      · rw [step_loadVar s i v hfetch hm]; exact Step.loadVar hfetch hm
    | StoreVar i =>
      rcases hst : s.stack with _ | ⟨v, rest⟩
      · rw [step_storeVar_underflow s i hfetch hst]; exact Step.storeVarErr hfetch hst
      · rw [step_storeVar s i v rest hfetch hst]; exact Step.storeVar hfetch hst
    | Jump t => rw [step_jump s t hfetch]; exact Step.jump hfetch
    | JumpIfZero t =>
      rcases hst : s.stack with _ | ⟨top, rest⟩
      · rw [step_jz_underflow s t hfetch hst]; exact Step.jzErr hfetch hst
      · by_cases htop : top = 0
        · have heq : step s = StepOut.next { s with pc := t } := by
            simp only [step, hfetch]; rw [hst]; simp only [if_pos htop]
          rw [heq]; exact Step.jzTaken hfetch hst htop
        · have heq : step s = StepOut.next { s with pc := s.pc + 1 } := by
            simp only [step, hfetch]; rw [hst]; simp only [if_neg htop]
          rw [heq]; exact Step.jzFall hfetch hst htop
    | JumpIfNotZero t =>
      rcases hst : s.stack with _ | ⟨top, rest⟩
      · rw [step_jnz_underflow s t hfetch hst]; exact Step.jnzErr hfetch hst
      · by_cases htop : top = 0
        · have heq : step s = StepOut.next { s with pc := s.pc + 1 } := by
            simp only [step, hfetch]; rw [hst]
            simp only [if_neg (not_not_intro htop)]
          rw [heq]; exact Step.jnzFall hfetch hst htop
        · have heq : step s = StepOut.next { s with pc := t } := by
            simp only [step, hfetch]; rw [hst]; simp only [if_pos htop]
          rw [heq]; exact Step.jnzTaken hfetch hst htop
    | Pop => rw [step_pop s hfetch]; exact Step.pop hfetch
    | Dup =>
      rcases hst : s.stack with _ | ⟨top, rest⟩
      · rw [step_dup_underflow s hfetch hst]; exact Step.dupErr hfetch hst
      · rw [step_dup s top rest hfetch hst]; exact Step.dup hfetch hst
    | Call name argc =>
      rcases hn : s.nativeFns name with _ | f
      · rcases hu : s.userFns name with _ | addr
        · rw [step_call_unknown s name argc hfetch hn hu]
          exact Step.callUnknown hfetch hn hu
        · rw [step_call_user s name argc addr hfetch hn hu]
          exact Step.callUser hfetch hn hu
      · rw [step_call_native s name argc f hfetch hn]
        exact Step.callNative hfetch hn
    | Return =>
      rcases hst : s.stack with _ | ⟨r, _ | ⟨a, rest⟩⟩
      · rw [step_return_underflow s hfetch (by simp [hst])]
        exact Step.retErr hfetch (by simp [hst])
      · rw [step_return_underflow s hfetch (by simp [hst])]
        exact Step.retErr hfetch (by simp [hst])
      · rw [step_return s r a rest hfetch hst]; exact Step.ret hfetch hst
    | Halt => rw [step_halt s hfetch]; exact Step.halted hfetch
    | Spawn => rw [step_spawn s hfetch]; exact Step.spawn hfetch
    | Sync => rw [step_sync s hfetch]; exact Step.sync hfetch
    | Barrier => rw [step_barrier s hfetch]; exact Step.barrier hfetch

/-- Successful fuelled executions are terminal executions of the
relational semantics. -/
theorem execute_execTo :
    ∀ (n : Nat) (s t : VMState), execute n s = ExecResult.ok t → ExecTo s (some t) := by
  intro n
  induction n with
  | zero => intro s t h; cases h
  | succ n ih =>
    intro s t h
    cases hs : step s with
    | done u =>
      rw [execute, hs] at h
      cases h
      exact ExecTo.exit (hs ▸ step_sound s)
    | err => rw [execute, hs] at h; cases h
    | next u =>
      rw [execute, hs] at h
      exact ExecTo.trans (hs ▸ step_sound s) (ih u t h)

/-- C10: for bytecode containing no `Spawn`, `Sync` or `Barrier`, VM
execution is deterministic: two terminal executions of the step relation
started from equal initial states (componentwise equal stack, memory,
program counter, bytecode, function registries, receivers and threads)
reach the same outcome — equal final states (hence equal stacks, memory
maps and program counters), and the same `VM::run` value (final top of
stack, default `0`). -/
theorem execution_deterministic (s1 s2 : VMState) (o1 o2 : Option VMState)
    (hnp : ∀ i ∈ s1.bytecode,
      i ≠ Bytecode.Spawn ∧ i ≠ Bytecode.Sync ∧ i ≠ Bytecode.Barrier)
    (hstack : s1.stack = s2.stack) (hmem : s1.memory = s2.memory)
    (hpc : s1.pc = s2.pc) (hcode : s1.bytecode = s2.bytecode)
    (husr : s1.userFns = s2.userFns) (hnat : s1.nativeFns = s2.nativeFns)
    (hrecv : s1.receivers = s2.receivers) (hthr : s1.threads = s2.threads)
    (h1 : ExecTo s1 o1) (h2 : ExecTo s2 o2) :
    o1 = o2 ∧ (o1.map fun t => t.stack.headD 0) = (o2.map fun t => t.stack.headD 0) := by
  have hs : s1 = s2 := by cases s1; cases s2; simp_all
  subst hs
  have ho := execTo_unique h1 h2
  exact ⟨ho, by rw [ho]⟩

/-- Witness for C10 on a concrete spawn-free program. -/
theorem execution_deterministic_witness :
    (some detDemoFinal = some detDemoFinal) ∧
    ((some detDemoFinal).map fun t => t.stack.headD 0) =
      ((some detDemoFinal).map fun t => t.stack.headD 0) :=
  execution_deterministic detDemoInit detDemoInit (some detDemoFinal) (some detDemoFinal)
    (by with_unfolding_all decide)
    rfl rfl rfl rfl rfl rfl rfl rfl
    (execute_execTo 2 detDemoInit detDemoFinal rfl)
    (execute_execTo 2 detDemoInit detDemoFinal rfl)

/-! ### Compiler correctness over the arithmetic fragment (claim C1) -/

theorem getElem?_eq_head?_drop (l : List Bytecode) : ∀ n : Nat, l[n]? = (l.drop n).head? := by
  induction l with
  | nil => intro n; simp
  | cons a l ih =>
    intro n
    cases n with
    | zero => simp
    | succ n => simpa using ih n

/-- The instruction fetched at position `p` is the head of the code
remaining from `p`. -/
theorem fetch_at (B : List Bytecode) (p : Nat) (i : Bytecode) (l : List Bytecode)
    (h : B.drop p = i :: l) : B[p]? = some i := by
  rw [getElem?_eq_head?_drop, h]; rfl

theorem drop_shift (B : List Bytecode) (p : Nat) (c rest : List Bytecode)
    (h : B.drop p = c ++ rest) : B.drop (p + c.length) = rest := by
  rw [← List.drop_drop, h]
  exact List.drop_left c rest

theorem nextN_add (m n : Nat) : ∀ s : VMState,
    nextN (m + n) s = (nextN m s).bind (nextN n) := by
  induction m with
  | zero => intro s; simp [nextN, Nat.zero_add]
  | succ m ih =>
    intro s
    have hsh : m + 1 + n = (m + n) + 1 := by omega
    rw [hsh, nextN, nextN]
    cases step s with
    | next t => exact ih t
    | done t => rfl
    | err => rfl

theorem execute_of_nextN : ∀ (m n : Nat) (s t : VMState), nextN m s = some t →
    execute (m + n) s = execute n t := by
  intro m
  induction m with
  | zero =>
    intro n s t h
    rw [nextN] at h
    cases h
    rw [Nat.zero_add]
  | succ m ih =>
    intro n s t h
    rw [nextN] at h
    have hsh : m + 1 + n = (m + n) + 1 := by omega
    rw [hsh, execute]
    cases hs : step s with
    | next u => rw [hs] at h; exact ih n u t h
    | done u => rw [hs] at h; cases h
    | err => rw [hs] at h; cases h

/-- Stepping through compiled code of a binary operation: left operand,
right operand, then the operation instruction. -/
theorem compiled_exec_bin (s : VMState) (vl vr : ℚ) (cl cr rest : List Bytecode)
    (instr : Bytecode) (f : ℚ → ℚ → ℚ)
    (hsi : ∀ u : VMState, u.bytecode[u.pc]? = some instr → step u = binopStep u f)
    (h1 : nextN cl.length s = some { s with stack := vl :: s.stack, pc := s.pc + cl.length })
    (h2 : nextN cr.length { s with stack := vl :: s.stack, pc := s.pc + cl.length } =
      some { s with stack := vr :: vl :: s.stack, pc := s.pc + cl.length + cr.length })
    (hdrop : s.bytecode.drop s.pc = cl ++ (cr ++ ([instr] ++ rest))) :
    nextN (cl ++ cr ++ [instr]).length s =
      some { s with stack := f vl vr :: s.stack
                    pc := s.pc + (cl ++ cr ++ [instr]).length } := by
  have hdrop2 : s.bytecode.drop (s.pc + cl.length) = cr ++ ([instr] ++ rest) :=
    drop_shift s.bytecode s.pc cl _ hdrop
  have hdrop3 : s.bytecode.drop (s.pc + cl.length + cr.length) = instr :: rest :=
    drop_shift s.bytecode (s.pc + cl.length) cr _ hdrop2
  have hf : s.bytecode[s.pc + cl.length + cr.length]? = some instr :=
    fetch_at s.bytecode _ _ _ hdrop3
  have hlen : (cl ++ cr ++ [instr]).length = cl.length + (cr.length + 1) := by
    simp [List.length_append]
  have hstep2 : step { s with stack := vr :: vl :: s.stack
                              pc := s.pc + cl.length + cr.length } =
      StepOut.next { s with stack := f vl vr :: s.stack
                            pc := s.pc + cl.length + cr.length + 1 } := by
    rw [hsi _ hf]
    exact binopStep_ok _ f vr vl s.stack rfl
  rw [hlen, nextN_add, h1]
  simp only [Option.bind]
  rw [nextN_add, h2]
  simp only [Option.bind]
  have hpc : s.pc + cl.length + cr.length + 1 = s.pc + (cl.length + (cr.length + 1)) := by
    omega
  simp [nextN, hstep2, hpc]

/-- Executing the compiled code of an arithmetic expression from any
program position performs exactly `c.length` continuing steps, pushes the
value of the expression, and moves the program counter past the compiled
code; stack below, memory and everything else are untouched. -/
theorem compiled_exec (e : Expr) (hA : Arith e) :
    ∀ c : List Bytecode, compileExpr e = some c →
      ∀ (s : VMState) (rest : List Bytecode),
        s.bytecode.drop s.pc = c ++ rest →
        nextN c.length s =
          some { s with stack := evalExpr e :: s.stack, pc := s.pc + c.length } := by
  induction hA with
  | num n =>
    intro c hc s rest hdrop
    simp only [compileExpr] at hc
    cases hc
    have hf : s.bytecode[s.pc]? = some (Bytecode.LoadConst n) :=
      fetch_at s.bytecode s.pc _ _ hdrop
    simp [nextN, step_loadConst s n hf, evalExpr]
  | @neg e hA ih =>
    intro c hc s rest hdrop
    simp only [compileExpr] at hc
    rcases hr : compileExpr e with _ | cr
    · rw [hr] at hc; cases hc
    · rw [hr] at hc
      cases hc
      rw [List.append_assoc] at hdrop
      have h1 := ih cr hr s (Bytecode.Neg :: rest) hdrop
      have hdrop2 : s.bytecode.drop (s.pc + cr.length) = Bytecode.Neg :: rest :=
        drop_shift s.bytecode s.pc cr _ hdrop
      have hf : s.bytecode[s.pc + cr.length]? = some Bytecode.Neg :=
        fetch_at s.bytecode _ _ _ hdrop2
      rw [List.length_append, nextN_add, h1]
      have hstep := step_neg { s with stack := evalExpr e :: s.stack, pc := s.pc + cr.length }
        (evalExpr e) s.stack hf rfl
      simp [nextN, hstep, evalExpr, Nat.add_assoc]
  | @bin l r op hop hAl hAr ihl ihr =>
    intro c hc s rest hdrop
    simp only [compileExpr] at hc
    rcases hl : compileExpr l with _ | cl
    · rw [hl] at hc; cases hc
    rcases hrr : compileExpr r with _ | cr
    · rw [hl, hrr] at hc; cases hc
    rw [hl, hrr] at hc
    rcases hop with rfl | rfl | rfl | rfl
    · cases hc
      have hdropB : s.bytecode.drop s.pc = cl ++ (cr ++ ([Bytecode.Add] ++ rest)) := by
        simpa [List.append_assoc] using hdrop
      have h1 := ihl cl hl s (cr ++ ([Bytecode.Add] ++ rest)) hdropB
      have h2 := ihr cr hrr { s with stack := evalExpr l :: s.stack, pc := s.pc + cl.length }
        ([Bytecode.Add] ++ rest) (drop_shift s.bytecode s.pc cl _ hdropB)
      exact compiled_exec_bin s (evalExpr l) (evalExpr r) cl cr rest Bytecode.Add
        (fun a b => a + b) step_add h1 h2 (by simpa [List.append_assoc] using hdrop)
    · cases hc
      have hdropB : s.bytecode.drop s.pc = cl ++ (cr ++ ([Bytecode.Sub] ++ rest)) := by
        simpa [List.append_assoc] using hdrop
      have h1 := ihl cl hl s (cr ++ ([Bytecode.Sub] ++ rest)) hdropB
      have h2 := ihr cr hrr { s with stack := evalExpr l :: s.stack, pc := s.pc + cl.length }
        ([Bytecode.Sub] ++ rest) (drop_shift s.bytecode s.pc cl _ hdropB)
      exact compiled_exec_bin s (evalExpr l) (evalExpr r) cl cr rest Bytecode.Sub
        (fun a b => a - b) step_sub h1 h2 (by simpa [List.append_assoc] using hdrop)
    · cases hc
      have hdropB : s.bytecode.drop s.pc = cl ++ (cr ++ ([Bytecode.Mul] ++ rest)) := by
        simpa [List.append_assoc] using hdrop
      have h1 := ihl cl hl s (cr ++ ([Bytecode.Mul] ++ rest)) hdropB
      have h2 := ihr cr hrr { s with stack := evalExpr l :: s.stack, pc := s.pc + cl.length }
        ([Bytecode.Mul] ++ rest) (drop_shift s.bytecode s.pc cl _ hdropB)
      exact compiled_exec_bin s (evalExpr l) (evalExpr r) cl cr rest Bytecode.Mul
        (fun a b => a * b) step_mul h1 h2 (by simpa [List.append_assoc] using hdrop)
    · cases hc
      have hdropB : s.bytecode.drop s.pc = cl ++ (cr ++ ([Bytecode.Div] ++ rest)) := by
        simpa [List.append_assoc] using hdrop
      have h1 := ihl cl hl s (cr ++ ([Bytecode.Div] ++ rest)) hdropB
      have h2 := ihr cr hrr { s with stack := evalExpr l :: s.stack, pc := s.pc + cl.length }
        ([Bytecode.Div] ++ rest) (drop_shift s.bytecode s.pc cl _ hdropB)
      exact compiled_exec_bin s (evalExpr l) (evalExpr r) cl cr rest Bytecode.Div
        (fun a b => a / b) step_div h1 h2 (by simpa [List.append_assoc] using hdrop)

/-- Compiler / VM correctness on the arithmetic fragment: running the
compiled form of an arithmetic expression yields its mathematical value. -/
theorem run_compiled (e : Expr) (hA : Arith e) (B : List Bytecode)
    (hB : compileTop e = some B) :
    runOut B B.length = some (evalExpr e) := by
  rcases hc : compileExpr e with _ | c
  · rw [compileTop, hc] at hB; cases hB
  · rw [compileTop, hc] at hB
    simp only [Option.map] at hB
    cases hB
    have hmain := compiled_exec e hA c hc (VM.new (c ++ [Bytecode.Halt])) [Bytecode.Halt]
      (by simp [VM.new])
    have hfetch : (VM.new (c ++ [Bytecode.Halt])).bytecode[0 + c.length]? =
        some Bytecode.Halt := by
      apply fetch_at _ _ _ []
      have : (VM.new (c ++ [Bytecode.Halt])).bytecode.drop 0 = c ++ [Bytecode.Halt] := rfl
      exact drop_shift _ 0 c _ this
    have hlen : (c ++ [Bytecode.Halt]).length = c.length + 1 := by simp
    rw [runOut, hlen]
    rw [execute_of_nextN c.length 1 _ _ hmain]
    rw [execute, step_halt _ hfetch]
    simp

/-! ### Fuel-monotonicity of the Pratt parsing functions -/

theorem pratt_mono :
    ∀ f : Nat,
      (∀ g ts r, f ≤ g → nudP f ts = some r → nudP g ts = some r) ∧
      (∀ g name ts r, f ≤ g → parseCallP f name ts = some r → parseCallP g name ts = some r) ∧
      (∀ g m ts r, f ≤ g → exprP f m ts = some r → exprP g m ts = some r) ∧
      (∀ g m lhs ts r, f ≤ g → ledLoopP f m lhs ts = some r → ledLoopP g m lhs ts = some r) := by
  intro f
  induction f with
  | zero =>
    refine ⟨?_, ?_, ?_, ?_⟩
    · intro g ts r _ h; rw [nudP] at h; cases h
    · intro g name ts r _ h; rw [parseCallP] at h; cases h
    · intro g m ts r _ h; rw [exprP] at h; cases h
    · intro g m lhs ts r _ h; rw [ledLoopP] at h; cases h
  | succ f ih =>
    obtain ⟨ihn, ihc, ihe, ihl⟩ := ih
    refine ⟨?_, ?_, ?_, ?_⟩
    · intro g ts r hg h
      cases g with
      | zero => omega
      | succ g =>
        have hfg : f ≤ g := by omega
        rw [nudP] at h ⊢
        split at h
        · exact h
        · rename_i name hcur
          try simp only [hcur]
          by_cases hlp : curTok ts.tail = Token.LParen
          · rw [if_pos hlp] at h ⊢
            exact ihc g name ts.tail.tail r hfg h
          · rw [if_neg hlp] at h ⊢
            exact h
        · rcases he : exprP f 100 ts.tail with _ | ⟨r1, ts1⟩
          · rw [he] at h; cases h
          · rw [he] at h
            rw [ihe g 100 ts.tail (r1, ts1) hfg he]
            exact h
        · rcases he : exprP f 0 ts.tail with _ | ⟨e1, ts1⟩
          · rw [he] at h; cases h
          · rw [he] at h
            rw [ihe g 0 ts.tail (e1, ts1) hfg he]
            exact h
        · cases h
    · intro g name ts r hg h
      cases g with
      | zero => omega
      | succ g =>
        have hfg : f ≤ g := by omega
        rw [parseCallP] at h ⊢
        split at h
        · rename_i hrp
          rw [if_pos hrp]
          exact h
        · rename_i hrp
          rw [if_neg hrp]
          split at h
          · rename_i heof; cases h
          · rename_i heof
            rw [if_neg heof]
            rcases he : exprP f 0 ts with _ | ⟨a1, ts1⟩
            · rw [he] at h; cases h
            · rw [he] at h
              rw [ihe g 0 ts (a1, ts1) hfg he]
              exact h
    · intro g m ts r hg h
      cases g with
      | zero => omega
      | succ g =>
        have hfg : f ≤ g := by omega
        rw [exprP] at h ⊢
        rcases he : nudP f ts with _ | ⟨lhs, ts1⟩
        · rw [he] at h; cases h
        · rw [he] at h
          rw [ihn g ts (lhs, ts1) hfg he]
          exact ihl g m lhs ts1 r hfg h
    · intro g m lhs ts r hg h
      cases g with
      | zero => omega
      | succ g =>
        have hfg : f ≤ g := by omega
        rw [ledLoopP] at h ⊢
        split at h
        · rename_i hstop
          rw [if_pos hstop]
          exact h
        · rename_i hstop
          rw [if_neg hstop]
          split at h
          · rename_i hlow
            rw [if_pos hlow]
            exact h
          · rename_i hlow
            rw [if_neg hlow]
            split at h
            · rcases he : exprP f (lbp Token.Plus) ts.tail with _ | ⟨rhs, ts1⟩
              · rw [he] at h; cases h
              · rw [he] at h
                rw [ihe g (lbp Token.Plus) ts.tail (rhs, ts1) hfg he]
                exact ihl g m (Expr.BinaryOp lhs Token.Plus rhs) ts1 r hfg h
            · rcases he : exprP f (lbp Token.Minus) ts.tail with _ | ⟨rhs, ts1⟩
              · rw [he] at h; cases h
              · rw [he] at h
                rw [ihe g (lbp Token.Minus) ts.tail (rhs, ts1) hfg he]
                exact ihl g m (Expr.BinaryOp lhs Token.Minus rhs) ts1 r hfg h
            · rcases he : exprP f (lbp Token.Star) ts.tail with _ | ⟨rhs, ts1⟩
              · rw [he] at h; cases h
              · rw [he] at h
                rw [ihe g (lbp Token.Star) ts.tail (rhs, ts1) hfg he]
                exact ihl g m (Expr.BinaryOp lhs Token.Star rhs) ts1 r hfg h
            · rcases he : exprP f (lbp Token.Slash) ts.tail with _ | ⟨rhs, ts1⟩
              · rw [he] at h; cases h
              · rw [he] at h
                rw [ihe g (lbp Token.Slash) ts.tail (rhs, ts1) hfg he]
                exact ihl g m (Expr.BinaryOp lhs Token.Slash rhs) ts1 r hfg h
            · cases h

theorem lbp_le20 (t : Token) : lbp t ≤ 20 := by
  cases t <;> simp [lbp]

theorem nudEv_num {ts : List Token} {n : ℚ} (h : curTok ts = Token.Number n) :
    NudEv ts (Expr.Number n, ts.tail) :=
  ⟨1, by rw [nudP, h]⟩

theorem nudEv_minus {ts ts1 : List Token} {e1 : Expr} (h : curTok ts = Token.Minus)
    (he : ExprEv 100 ts.tail (e1, ts1)) :
    NudEv ts (Expr.UnaryOp Token.Minus e1, ts1) := by
  obtain ⟨f, hf⟩ := he
  exact ⟨f + 1, by rw [nudP, h, hf]; rfl⟩

theorem nudEv_paren {ts ts1 : List Token} {e1 : Expr} (h : curTok ts = Token.LParen)
    (he : ExprEv 0 ts.tail (e1, ts1)) (hrp : curTok ts1 = Token.RParen) :
    NudEv ts (e1, ts1.tail) := by
  obtain ⟨f, hf⟩ := he
  refine ⟨f + 1, ?_⟩
  rw [nudP, h, hf]
  simp [hrp]

theorem exprEv_intro {m : Nat} {ts ts1 : List Token} {lhs : Expr} {r : Expr × List Token}
    (hn : NudEv ts (lhs, ts1)) (hl : LoopEv m lhs ts1 r) : ExprEv m ts r := by
  obtain ⟨fn, hfn⟩ := hn
  obtain ⟨fl, hfl⟩ := hl
  refine ⟨max fn fl + 1, ?_⟩
  rw [exprP]
  rw [(pratt_mono fn).1 (max fn fl) ts (lhs, ts1) (Nat.le_max_left fn fl) hfn]
  exact (pratt_mono fl).2.2.2 (max fn fl) m lhs ts1 r (Nat.le_max_right fn fl) hfl

theorem exprEv_elim {m : Nat} {ts : List Token} {r : Expr × List Token}
    (he : ExprEv m ts r) :
    ∃ lhs ts1, NudEv ts (lhs, ts1) ∧ LoopEv m lhs ts1 r := by
  obtain ⟨f, hf⟩ := he
  cases f with
  | zero => rw [exprP] at hf; cases hf
  | succ f =>
    rw [exprP] at hf
    rcases hn : nudP f ts with _ | ⟨lhs, ts1⟩
    · rw [hn] at hf; cases hf
    · rw [hn] at hf
      exact ⟨lhs, ts1, ⟨f, hn⟩, ⟨f, hf⟩⟩

theorem loopEv_exit {m : Nat} {lhs : Expr} {ts : List Token}
    (hstop : curTok ts = Token.Eof ∨ curTok ts = Token.RParen ∨ lbp (curTok ts) < m) :
    LoopEv m lhs ts (lhs, ts) := by
  refine ⟨1, ?_⟩
  rw [ledLoopP]
  by_cases hd : curTok ts = Token.Eof ∨ curTok ts = Token.RParen
  · rw [if_pos hd]
  · rw [if_neg hd]
    have hlow : lbp (curTok ts) < m := by
      rcases hstop with h | h | h
      · exact absurd (Or.inl h) hd
      · exact absurd (Or.inr h) hd
      · exact h
    rw [if_pos hlow]

theorem loopEv_fold {m : Nat} {lhs rhs : Expr} {op : Token} {ts ts1 : List Token}
    {r : Expr × List Token}
    (hop : op = Token.Plus ∨ op = Token.Minus ∨ op = Token.Star ∨ op = Token.Slash)
    (hcur : curTok ts = op)
    (hstop : ¬(curTok ts = Token.Eof ∨ curTok ts = Token.RParen))
    (hge : ¬ lbp (curTok ts) < m)
    (he : ExprEv (lbp op) ts.tail (rhs, ts1))
    (hrest : LoopEv m (Expr.BinaryOp lhs op rhs) ts1 r) :
    LoopEv m lhs ts r := by
  obtain ⟨fe, hfe⟩ := he
  obtain ⟨fl, hfl⟩ := hrest
  refine ⟨max fe fl + 1, ?_⟩
  rw [ledLoopP, if_neg hstop, if_neg hge]
  have hfe2 := (pratt_mono fe).2.2.1 (max fe fl) (lbp op) ts.tail (rhs, ts1)
    (Nat.le_max_left fe fl) hfe
  have hfl2 := (pratt_mono fl).2.2.2 (max fe fl) m (Expr.BinaryOp lhs op rhs) ts1 r
    (Nat.le_max_right fe fl) hfl
  rcases hop with rfl | rfl | rfl | rfl <;>
    · rw [hcur]
      rw [hfe2]
      exact hfl2

/-- After a term of the reference grammar, the lookahead is never `*` or
`/` (binding power at most 10). -/
theorem specTermR_exit :
    ∀ (f : Nat) (ts : List Token) (e : Expr) (ts2 : List Token),
      specTermR f ts = some (e, ts2) → lbp (curTok ts2) ≤ 10 := by
  intro f
  induction f with
  | zero => intro ts e ts2 h; rw [specTermR] at h; cases h
  | succ f ih =>
    intro ts e ts2 h
    rw [specTermR] at h
    rcases hF : specFactor f ts with _ | ⟨l, ts1⟩
    · rw [hF] at h; cases h
    · rw [hF] at h
      simp only [Option.bind_eq_bind, Option.some_bind] at h
      by_cases hs : curTok ts1 = Token.Star
      · rw [if_pos hs] at h
        rcases hT : specTermR f ts1.tail with _ | ⟨r1, ts3⟩
        · rw [hT] at h; cases h
        · rw [hT] at h; cases h; exact ih _ _ _ hT
      · rw [if_neg hs] at h
        by_cases hs2 : curTok ts1 = Token.Slash
        · rw [if_pos hs2] at h
          rcases hT : specTermR f ts1.tail with _ | ⟨r1, ts3⟩
          · rw [hT] at h; cases h
          · rw [hT] at h; cases h; exact ih _ _ _ hT
        · rw [if_neg hs2] at h
          cases h
          cases hc : curTok ts2 <;> simp_all [lbp]

/-- After an expression of the reference grammar, the lookahead is not an
operator at all (binding power 0). -/
theorem specExprR_exit :
    ∀ (f : Nat) (ts : List Token) (e : Expr) (ts2 : List Token),
      specExprR f ts = some (e, ts2) → lbp (curTok ts2) = 0 := by
  intro f
  induction f with
  | zero => intro ts e ts2 h; rw [specExprR] at h; cases h
  | succ f ih =>
    intro ts e ts2 h
    rw [specExprR] at h
    rcases hT : specTermR f ts with _ | ⟨l, ts1⟩
    · rw [hT] at h; cases h
    · rw [hT] at h
      simp only [Option.bind_eq_bind, Option.some_bind] at h
      by_cases hp : curTok ts1 = Token.Plus
      · rw [if_pos hp] at h
        rcases hE : specExprR f ts1.tail with _ | ⟨r1, ts3⟩
        · rw [hE] at h; cases h
        · rw [hE] at h; cases h; exact ih _ _ _ hE
      · rw [if_neg hp] at h
        by_cases hm : curTok ts1 = Token.Minus
        · rw [if_pos hm] at h
          rcases hE : specExprR f ts1.tail with _ | ⟨r1, ts3⟩
          · rw [hE] at h; cases h
          · rw [hE] at h; cases h; exact ih _ _ _ hE
        · rw [if_neg hm] at h
          cases h
          have hle := specTermR_exit f ts _ _ hT
          cases hc : curTok ts2 <;> simp_all [lbp]

/-- Folding at binding power 20 and then continuing at a lower binding
power is one run of the infix loop at the lower power. -/
theorem loopEv_trans :
    ∀ (f m : Nat) (lhs e1 : Expr) (ts ts1 : List Token) (r : Expr × List Token),
      ledLoopP f 20 lhs ts = some (e1, ts1) → m ≤ 10 →
      LoopEv m e1 ts1 r → LoopEv m lhs ts r := by
  intro f
  induction f with
  | zero => intro m lhs e1 ts ts1 r h _ _; rw [ledLoopP] at h; cases h
  | succ f ih =>
    intro m lhs e1 ts ts1 r h hm hrest
    rw [ledLoopP] at h
    split at h
    · cases h; exact hrest
    · rename_i hstop
      split at h
      · cases h; exact hrest
      · rename_i hlow
        split at h
        · rename_i hcur
          rw [hcur] at hlow
          simp [lbp] at hlow
        · rename_i hcur
          rw [hcur] at hlow
          simp [lbp] at hlow
        · rename_i hcur
          rcases he : exprP f (lbp Token.Star) ts.tail with _ | ⟨rhs, ts2⟩
          · rw [he] at h; cases h
          · rw [he] at h
            have hrec := ih m (Expr.BinaryOp lhs Token.Star rhs) e1 ts2 ts1 r h hm hrest
            refine loopEv_fold (Or.inr (Or.inr (Or.inl rfl))) hcur hstop ?_ ⟨f, he⟩ hrec
            rw [hcur]
            simp only [lbp]
            omega
        · rename_i hcur
          rcases he : exprP f (lbp Token.Slash) ts.tail with _ | ⟨rhs, ts2⟩
          · rw [he] at h; cases h
          · rw [he] at h
            have hrec := ih m (Expr.BinaryOp lhs Token.Slash rhs) e1 ts2 ts1 r h hm hrest
            refine loopEv_fold (Or.inr (Or.inr (Or.inr rfl))) hcur hstop ?_ ⟨f, he⟩ hrec
            rw [hcur]
            simp only [lbp]
            omega
        · cases h

theorem lbp_lt20 {t : Token} (hs : t ≠ Token.Star) (hd : t ≠ Token.Slash) : lbp t < 20 := by
  cases t <;> simp_all [lbp]

theorem lbp_lt10 {t : Token} (hp : t ≠ Token.Plus) (hm : t ≠ Token.Minus)
    (hs : t ≠ Token.Star) (hd : t ≠ Token.Slash) : lbp t < 10 := by
  cases t <;> simp_all [lbp]

/-- The reference grammar only produces arithmetic expression trees. -/
theorem spec_arith :
    ∀ f : Nat,
      (∀ ts e ts2, specFactor f ts = some (e, ts2) → Arith e) ∧
      (∀ ts e ts2, specTermR f ts = some (e, ts2) → Arith e) ∧
      (∀ ts e ts2, specExprR f ts = some (e, ts2) → Arith e) := by
  intro f
  induction f with
  | zero =>
    refine ⟨?_, ?_, ?_⟩
    · intro ts e ts2 h; rw [specFactor] at h; cases h
    · intro ts e ts2 h; rw [specTermR] at h; cases h
    · intro ts e ts2 h; rw [specExprR] at h; cases h
  | succ f ih =>
    obtain ⟨ihF, ihT, ihE⟩ := ih
    refine ⟨?_, ?_, ?_⟩
    · intro ts e ts2 h
      rw [specFactor] at h
      split at h
      · cases h; exact Arith.num _
      · rcases hF : specFactor f ts.tail with _ | ⟨r1, ts3⟩
        · rw [hF] at h; cases h
        · rw [hF] at h; cases h
          exact Arith.neg (ihF _ _ _ hF)
      · rcases hE : specExprR f ts.tail with _ | ⟨e1, ts3⟩
        · rw [hE] at h; cases h
        · rw [hE] at h
          simp only [Option.bind_eq_bind, Option.some_bind] at h
          by_cases hrp : curTok ts3 = Token.RParen
          · rw [if_pos hrp] at h; cases h; exact ihE _ _ _ hE
          · rw [if_neg hrp] at h; cases h
      · cases h
    · intro ts e ts2 h
      rw [specTermR] at h
      rcases hF : specFactor f ts with _ | ⟨l, ts1⟩
      · rw [hF] at h; cases h
      · rw [hF] at h
        simp only [Option.bind_eq_bind, Option.some_bind] at h
        by_cases hs : curTok ts1 = Token.Star
        · rw [if_pos hs] at h
          rcases hT : specTermR f ts1.tail with _ | ⟨r1, ts3⟩
          · rw [hT] at h; cases h
          · rw [hT] at h; cases h
            exact Arith.bin _ (Or.inr (Or.inr (Or.inl rfl))) (ihF _ _ _ hF) (ihT _ _ _ hT)
        · rw [if_neg hs] at h
          by_cases hs2 : curTok ts1 = Token.Slash
          · rw [if_pos hs2] at h
            rcases hT : specTermR f ts1.tail with _ | ⟨r1, ts3⟩
            · rw [hT] at h; cases h
            · rw [hT] at h; cases h
              exact Arith.bin _ (Or.inr (Or.inr (Or.inr rfl))) (ihF _ _ _ hF) (ihT _ _ _ hT)
          · rw [if_neg hs2] at h; cases h; exact ihF _ _ _ hF
    · intro ts e ts2 h
      rw [specExprR] at h
      rcases hT : specTermR f ts with _ | ⟨l, ts1⟩
      · rw [hT] at h; cases h
      · rw [hT] at h
        simp only [Option.bind_eq_bind, Option.some_bind] at h
        by_cases hp : curTok ts1 = Token.Plus
        · rw [if_pos hp] at h
          rcases hE : specExprR f ts1.tail with _ | ⟨r1, ts3⟩
          · rw [hE] at h; cases h
          · rw [hE] at h; cases h
            exact Arith.bin _ (Or.inl rfl) (ihT _ _ _ hT) (ihE _ _ _ hE)
        · rw [if_neg hp] at h
          by_cases hm : curTok ts1 = Token.Minus
          · rw [if_pos hm] at h
            rcases hE : specExprR f ts1.tail with _ | ⟨r1, ts3⟩
            · rw [hE] at h; cases h
            · rw [hE] at h; cases h
              exact Arith.bin _ (Or.inr (Or.inl rfl)) (ihT _ _ _ hT) (ihE _ _ _ hE)
          · rw [if_neg hm] at h; cases h; exact ihT _ _ _ hT

/-- The Pratt parser computes exactly the reference right-associative
grammar: every reference parse is a Pratt parse, level by level (`nud`
computes factors, `expr 20` computes terms, `expr 0`/`expr 10` compute
expressions). -/
theorem spec_pratt :
    ∀ f : Nat,
      (∀ ts e ts2, specFactor f ts = some (e, ts2) → NudEv ts (e, ts2)) ∧
      (∀ ts e ts2, specTermR f ts = some (e, ts2) → ExprEv 20 ts (e, ts2)) ∧
      (∀ ts e ts2 m, m = 0 ∨ m = 10 →
        (m = 0 → curTok ts2 = Token.Eof ∨ curTok ts2 = Token.RParen) →
        specExprR f ts = some (e, ts2) → ExprEv m ts (e, ts2)) := by
  intro f
  induction f with
  | zero =>
    refine ⟨?_, ?_, ?_⟩
    · intro ts e ts2 h; rw [specFactor] at h; cases h
    · intro ts e ts2 h; rw [specTermR] at h; cases h
    · intro ts e ts2 m _ _ h; rw [specExprR] at h; cases h
  | succ f ih =>
    obtain ⟨ihF, ihT, ihE⟩ := ih
    refine ⟨?_, ?_, ?_⟩
    · intro ts e ts2 h
      rw [specFactor] at h
      split at h
      · rename_i n hcur
        cases h
        exact nudEv_num hcur
      · rename_i hcur
        rcases hF : specFactor f ts.tail with _ | ⟨r1, ts3⟩
        · rw [hF] at h; cases h
        · rw [hF] at h; cases h
          have hn := ihF _ _ _ hF
          have hsub : ExprEv 100 ts.tail (r1, ts2) :=
            exprEv_intro hn (loopEv_exit (Or.inr (Or.inr (by
              have := lbp_le20 (curTok ts2); omega))))
          exact nudEv_minus hcur hsub
      · rename_i hcur
        rcases hE : specExprR f ts.tail with _ | ⟨e1, ts3⟩
        · rw [hE] at h; cases h
        · rw [hE] at h
          simp only [Option.bind_eq_bind, Option.some_bind] at h
          by_cases hrp : curTok ts3 = Token.RParen
          · rw [if_pos hrp] at h
            cases h
            have he0 := ihE _ _ _ 0 (Or.inl rfl) (fun _ => Or.inr hrp) hE
            exact nudEv_paren hcur he0 hrp
          · rw [if_neg hrp] at h; cases h
      · cases h
    · intro ts e ts2 h
      rw [specTermR] at h
      rcases hF : specFactor f ts with _ | ⟨l, ts1⟩
      · rw [hF] at h; cases h
      · rw [hF] at h
        simp only [Option.bind_eq_bind, Option.some_bind] at h
        have hn := ihF _ _ _ hF
        by_cases hs : curTok ts1 = Token.Star
        · rw [if_pos hs] at h
          rcases hT : specTermR f ts1.tail with _ | ⟨r1, ts3⟩
          · rw [hT] at h; cases h
          · rw [hT] at h; cases h
            have hrhs := ihT _ _ _ hT
            have hexit : lbp (curTok ts3) ≤ 10 := specTermR_exit f _ _ _ hT
            have hloop : LoopEv 20 l ts1 (Expr.BinaryOp l Token.Star r1, ts3) := by
              refine loopEv_fold (Or.inr (Or.inr (Or.inl rfl))) hs ?_ ?_ hrhs
                (loopEv_exit (Or.inr (Or.inr (by omega))))
              · rw [hs]; decide
              · rw [hs]; simp [lbp]
            exact exprEv_intro hn hloop
        · rw [if_neg hs] at h
          by_cases hs2 : curTok ts1 = Token.Slash
          · rw [if_pos hs2] at h
            rcases hT : specTermR f ts1.tail with _ | ⟨r1, ts3⟩
            · rw [hT] at h; cases h
            · rw [hT] at h; cases h
              have hrhs := ihT _ _ _ hT
              have hexit : lbp (curTok ts3) ≤ 10 := specTermR_exit f _ _ _ hT
              have hloop : LoopEv 20 l ts1 (Expr.BinaryOp l Token.Slash r1, ts3) := by
                refine loopEv_fold (Or.inr (Or.inr (Or.inr rfl))) hs2 ?_ ?_ hrhs
                  (loopEv_exit (Or.inr (Or.inr (by omega))))
                · rw [hs2]; decide
                · rw [hs2]; simp [lbp]
              exact exprEv_intro hn hloop
          · rw [if_neg hs2] at h
            cases h
            exact exprEv_intro hn (loopEv_exit (Or.inr (Or.inr (lbp_lt20 hs hs2))))
    · intro ts e ts2 m hm hside h
      rw [specExprR] at h
      rcases hT : specTermR f ts with _ | ⟨l, ts1⟩
      · rw [hT] at h; cases h
      · rw [hT] at h
        simp only [Option.bind_eq_bind, Option.some_bind] at h
        have ht20 := ihT _ _ _ hT
        obtain ⟨l0, u, hnud, hloop20⟩ := exprEv_elim ht20
        obtain ⟨f20, hloop20f⟩ := hloop20
        have hm10 : m ≤ 10 := by rcases hm with rfl | rfl <;> omega
        by_cases hp : curTok ts1 = Token.Plus
        · rw [if_pos hp] at h
          rcases hE : specExprR f ts1.tail with _ | ⟨r1, ts3⟩
          · rw [hE] at h; cases h
          · rw [hE] at h; cases h
            have hrhs := ihE _ _ _ 10 (Or.inr rfl) (fun h0 => absurd h0 (by decide)) hE
            have hexit := specExprR_exit f _ _ _ hE
            have hrest : LoopEv m (Expr.BinaryOp l Token.Plus r1) ts3
                (Expr.BinaryOp l Token.Plus r1, ts3) := by
              rcases hm with rfl | rfl
              · rcases hside rfl with h1 | h1
                · exact loopEv_exit (Or.inl h1)
                · exact loopEv_exit (Or.inr (Or.inl h1))
              · exact loopEv_exit (Or.inr (Or.inr (by omega)))
            have hfold : LoopEv m l ts1 (Expr.BinaryOp l Token.Plus r1, ts3) := by
              refine loopEv_fold (Or.inl rfl) hp ?_ ?_ hrhs hrest
              · rw [hp]; decide
              · rw [hp]; simp [lbp]; omega
            exact exprEv_intro hnud (loopEv_trans f20 m l0 l u ts1 _ hloop20f hm10 hfold)
        · rw [if_neg hp] at h
          by_cases hmm : curTok ts1 = Token.Minus
          · rw [if_pos hmm] at h
            rcases hE : specExprR f ts1.tail with _ | ⟨r1, ts3⟩
            · rw [hE] at h; cases h
            · rw [hE] at h; cases h
              have hrhs := ihE _ _ _ 10 (Or.inr rfl) (fun h0 => absurd h0 (by decide)) hE
              have hexit := specExprR_exit f _ _ _ hE
              have hrest : LoopEv m (Expr.BinaryOp l Token.Minus r1) ts3
                  (Expr.BinaryOp l Token.Minus r1, ts3) := by
                rcases hm with rfl | rfl
                · rcases hside rfl with h1 | h1
                  · exact loopEv_exit (Or.inl h1)
                  · exact loopEv_exit (Or.inr (Or.inl h1))
                · exact loopEv_exit (Or.inr (Or.inr (by omega)))
              have hfold : LoopEv m l ts1 (Expr.BinaryOp l Token.Minus r1, ts3) := by
                refine loopEv_fold (Or.inr (Or.inl rfl)) hmm ?_ ?_ hrhs hrest
                · rw [hmm]; decide
                · rw [hmm]; simp [lbp]; omega
              exact exprEv_intro hnud (loopEv_trans f20 m l0 l u ts1 _ hloop20f hm10 hfold)
          · rw [if_neg hmm] at h
            cases h
            have hexitT : lbp (curTok ts2) ≤ 10 := specTermR_exit f _ _ _ hT
            have hsne : curTok ts2 ≠ Token.Star := by
              intro hh; rw [hh] at hexitT; simp [lbp] at hexitT
            have hdne : curTok ts2 ≠ Token.Slash := by
              intro hh; rw [hh] at hexitT; simp [lbp] at hexitT
            have hrest : LoopEv m e ts2 (e, ts2) := by
              rcases hm with rfl | rfl
              · rcases hside rfl with h1 | h1
                · exact loopEv_exit (Or.inl h1)
                · exact loopEv_exit (Or.inr (Or.inl h1))
              · exact loopEv_exit (Or.inr (Or.inr (lbp_lt10 hp hmm hsne hdne)))
            exact exprEv_intro hnud (loopEv_trans f20 m l0 e u ts2 _ hloop20f hm10 hrest)

/-- Arithmetic expressions always lower successfully. -/
theorem compile_arith {e : Expr} (hA : Arith e) : ∃ c, compileExpr e = some c := by
  induction hA with
  | num n => exact ⟨_, rfl⟩
  | @neg e hA ih =>
    obtain ⟨c, hc⟩ := ih
    exact ⟨c ++ [Bytecode.Neg], by simp [compileExpr, hc]⟩
  | @bin l r op hop hAl hAr ihl ihr =>
    obtain ⟨cl, hcl⟩ := ihl
    obtain ⟨cr, hcr⟩ := ihr
    rcases hop with rfl | rfl | rfl | rfl
    · exact ⟨cl ++ cr ++ [Bytecode.Add], by simp [compileExpr, hcl, hcr]⟩
    · exact ⟨cl ++ cr ++ [Bytecode.Sub], by simp [compileExpr, hcl, hcr]⟩
    · exact ⟨cl ++ cr ++ [Bytecode.Mul], by simp [compileExpr, hcl, hcr]⟩
    · exact ⟨cl ++ cr ++ [Bytecode.Div], by simp [compileExpr, hcl, hcr]⟩

/-- C1 (amended): for every valid arithmetic source string — one that the
reference right-associative grammar (`*`/`/` tighter than `+`/`-`, unary
minus tightest, equal precedence grouping to the RIGHT, so 1-2-3 parses
as 1-(2-3)) parses to a tree `e` consuming all tokens — the Pratt parser
returns exactly `e` (for every large enough fuel), `e` compiles, and
running the compiled bytecode returns exactly the mathematically correct
evaluation of `e` in exact rational arithmetic. -/
theorem pipeline_right_assoc_correct (src : String) (ts : List Token) (f : Nat) (e : Expr)
    (htok : tokenize src = some ts)
    (hparse : specExprR f ts = some (e, [])) :
    Arith e ∧
    ∃ g0 B, compileTop e = some B ∧
      (∀ g, g0 ≤ g → parseExpr g src = some e ∧ exprP g 0 ts = some (e, [])) ∧
      runOut B B.length = some (evalExpr e) := by
  have hA : Arith e := (spec_arith f).2.2 ts e [] hparse
  have hEv : ExprEv 0 ts (e, []) :=
    (spec_pratt f).2.2 ts e [] 0 (Or.inl rfl) (fun _ => Or.inl rfl) hparse
  obtain ⟨g0, hg0⟩ := hEv
  obtain ⟨c, hc⟩ := compile_arith hA
  refine ⟨hA, g0, c ++ [Bytecode.Halt], ?_, ?_, ?_⟩
  · rw [compileTop, hc]; rfl
  · intro g hg
    have hp : exprP g 0 ts = some (e, []) :=
      (pratt_mono g0).2.2.1 g 0 ts (e, []) hg hg0
    refine ⟨?_, hp⟩
    rw [parseExpr, htok]
    simp [hp]
  · exact run_compiled e hA (c ++ [Bytecode.Halt]) (by rw [compileTop, hc]; rfl)

/-- Witness for C1 on the concrete source `1+2*3`. -/
theorem pipeline_right_assoc_correct_witness :
    Arith (Expr.BinaryOp (Expr.Number 1) Token.Plus
      (Expr.BinaryOp (Expr.Number 2) Token.Star (Expr.Number 3))) ∧
    ∃ g0 B, compileTop (Expr.BinaryOp (Expr.Number 1) Token.Plus
        (Expr.BinaryOp (Expr.Number 2) Token.Star (Expr.Number 3))) = some B ∧
      (∀ g, g0 ≤ g → parseExpr g "1+2*3" = some (Expr.BinaryOp (Expr.Number 1) Token.Plus
          (Expr.BinaryOp (Expr.Number 2) Token.Star (Expr.Number 3))) ∧
        exprP g 0 [Token.Number 1, Token.Plus, Token.Number 2, Token.Star, Token.Number 3] =
          some (Expr.BinaryOp (Expr.Number 1) Token.Plus
            (Expr.BinaryOp (Expr.Number 2) Token.Star (Expr.Number 3)), [])) ∧
      runOut B B.length = some (evalExpr (Expr.BinaryOp (Expr.Number 1) Token.Plus
        (Expr.BinaryOp (Expr.Number 2) Token.Star (Expr.Number 3)))) :=
  pipeline_right_assoc_correct "1+2*3"
    [Token.Number 1, Token.Plus, Token.Number 2, Token.Star, Token.Number 3] 9
    (Expr.BinaryOp (Expr.Number 1) Token.Plus
      (Expr.BinaryOp (Expr.Number 2) Token.Star (Expr.Number 3)))
    (by with_unfolding_all decide) (by with_unfolding_all rfl)

/-- Counterexample to C1 as stated: on `1-2-3` the left-associative
evaluation demanded by the claim is `(1-2)-3 = -4`, but the pipeline
(scan, Pratt parse, compile, run) returns `2`, because the parser folds
the right-hand side at the operator's own binding power and therefore
groups equal-precedence operators to the right: `1-(2-3) = 2`. -/
theorem one_minus_two_minus_three_runs_to_two :
    (do
      let ts ← tokenize "1-2-3"
      let (eL, _) ← specExprL 9 ts
      some (evalExpr eL)) = some (-4) ∧
    (do
      let ts ← tokenize "1-2-3"
      let e ← (exprP 9 0 ts).map Prod.fst
      let B ← compileTop e
      runOut B 9) = some 2 ∧
    (2 : ℚ) ≠ -4 := by
  refine ⟨by with_unfolding_all decide, by with_unfolding_all decide, by norm_num⟩
